import Mathlib

/-!
Verification of the obsidian-preview build pipeline (obsidian-preview.go).

The program's string processing is embedded shallowly: Go strings become
`List Char` (Go compares strings bytewise; on UTF-8 byte order and code-point
order agree, so `Char` order is faithful), `strings.Index` returning -1
becomes `Option Nat`, and every loop of the source is translated to a
structurally recursive Lean function.  Loops whose Go termination argument is
"the slice strictly shrinks" take an explicit fuel argument; the top-level
entry points pass fuel larger than the input length, which the lemmas below
show is never exhausted, so the fuel only renders the translation
structurally recursive and kernel-computable.
-/

namespace ObsidianPreview

/-! ## Go string primitives (package strings / path/filepath) -/

/-- strings.HasPrefix s pre (arguments: pattern first, then the string). -/
def goPfx : List Char → List Char → Bool
  | [], _ => true
  | _ :: _, [] => false
  | a :: as, b :: bs => a == b && goPfx as bs

/-- strings.Index hay needle: index of the first occurrence of `n` in `h`,
`none` for Go's -1. -/
def goIndex (n : List Char) (h : List Char) : Option Nat :=
  if goPfx n h then some 0
  else
    match h with
    | [] => none
    | _ :: t => (goIndex n t).map Nat.succ

/-- strings.Contains h n. -/
def goContains (n h : List Char) : Bool := (goIndex n h).isSome

/-- strings.Replace s old new 1: replace the first occurrence only. -/
def goRepl1 (s old nw : List Char) : List Char :=
  match goIndex old s with
  | none => s
  | some i => s.take i ++ nw ++ s.drop (i + old.length)

/-- strings.ReplaceAll, fueled: each step rewrites the leftmost occurrence and
continues after the inserted text, exactly as Go does. -/
def goReplAllF : Nat → List Char → List Char → List Char → List Char
  | 0, _, _, s => s
  | fuel + 1, o, nw, s =>
    match o with
    | [] => s
    | _ :: _ =>
      match goIndex o s with
      | none => s
      | some i => s.take i ++ nw ++ goReplAllF fuel o nw (s.drop (i + o.length))

/-- strings.ReplaceAll s old new (old nonempty at every call site of the
source, so the fuel `s.length` is never exhausted). -/
def goReplAll (o nw s : List Char) : List Char := goReplAllF s.length o nw s

/-- unicode.IsSpace, the character class strings.TrimSpace trims
(the Unicode White_Space set). -/
def goSpace (c : Char) : Bool :=
  c.toNat ∈ [0x9, 0xA, 0xB, 0xC, 0xD, 0x20, 0x85, 0xA0, 0x1680,
    0x2000, 0x2001, 0x2002, 0x2003, 0x2004, 0x2005, 0x2006, 0x2007,
    0x2008, 0x2009, 0x200A, 0x2028, 0x2029, 0x202F, 0x205F, 0x3000]

/-- strings.TrimSpace. -/
def goTrim (s : List Char) : List Char :=
  ((s.dropWhile goSpace).reverse.dropWhile goSpace).reverse

/-- Go string comparison `<` (bytewise lexicographic). -/
def lexLt : List Char → List Char → Bool
  | [], [] => false
  | [], _ :: _ => true
  | _ :: _, [] => false
  | a :: as, b :: bs => if a = b then lexLt as bs else decide (a < b)

/-! ## path/filepath (slash separator: the server targets Linux paths) -/

/-- Split on `/`, keeping empty segments (they are filtered by Clean). -/
def splitSlash : List Char → List (List Char)
  | [] => [[]]
  | c :: t =>
    if c = '/' then [] :: splitSlash t
    else
      match splitSlash t with
      | [] => [[c]]
      | s :: ss => (c :: s) :: ss

/-- Join segments with `/` between them. -/
def interSlash : List (List Char) → List Char
  | [] => []
  | [s] => s
  | s :: ss => s ++ '/' :: interSlash ss

/-- One step of filepath.Clean's element processing: `.` is dropped, `..`
pops the preceding element unless the stack holds only `..`s (kept for a
relative path, dropped at the root of a rooted one). -/
def cleanStep (rooted : Bool) (acc : List (List Char)) (seg : List Char) :
    List (List Char) :=
  if seg = ['.'] then acc
  else if seg = ['.', '.'] then
    match acc with
    | [] => if rooted then [] else [['.', '.']]
    | t :: ts => if t = ['.', '.'] then seg :: acc else ts
  else seg :: acc

/-- filepath.Clean for slash-separated paths. -/
def goClean (p : List Char) : List Char :=
  if p = [] then ['.']
  else
    let rooted := p.head? = some '/'
    let segs := (splitSlash p).filter (· ≠ [])
    let stack := segs.foldl (cleanStep rooted) []
    let out := interSlash stack.reverse
    if rooted then '/' :: out
    else if out = [] then ['.'] else out

/-- filepath.Join dir name (two arguments, as the source always calls it):
all-empty yields "", otherwise the nonempty parts joined and Cleaned. -/
def goJoin2 (a b : List Char) : List Char :=
  if a = [] && b = [] then []
  else if a = [] then goClean b
  else if b = [] then goClean a
  else goClean (a ++ '/' :: b)

/-- Index of the last `/` of a path, if any. -/
def lastSlash (p : List Char) : Option Nat :=
  match goIndex ['/'] p.reverse with
  | none => none
  | some i => some (p.length - 1 - i)

/-- filepath.Dir: everything up to and including the final separator,
Cleaned (`.` when there is no separator). -/
def goDir (p : List Char) : List Char :=
  match lastSlash p with
  | none => goClean []
  | some k => goClean (p.take (k + 1))

/-! ## fixImagePaths (obsidian-preview.go, lines 244–324)

The Go loop scans for `<img src="`, splits out the attribute value and the
tag, and either copies an already-processed tag, rewrites a relative path,
or only adds the lightbox attributes.  `processed` counts rewrites against
the `maxIterations := 1000` ceiling; on reaching the ceiling the original
input is returned unchanged.  The loop consumes at least 11 characters of
`content` per iteration, so fuel `content.length + 1` is never exhausted. -/

/-- The scanned opening text `<img src="`. -/
def imgNeedle : List Char := "<img src=\"".data

/-- The already-processed marker the source tests with strings.Contains. -/
def markerStr : List Char := "onclick=\"openImageModal".data

/-- The attribute text inserted after the rewritten src value. -/
def insStr : List Char :=
  " class=\"preview-image\" onclick=\"openImageModal(this.src)\"".data

/-- The attribute text (with closing `>`) appended to absolute/remote tags. -/
def insStrG : List Char := insStr ++ ['>']

/-- The `src="…"` attribute text built around a value. -/
def srcAttr (v : List Char) : List Char := "src=\"".data ++ v ++ ['"']

/-- The relative-reference test of line 290: not rooted, not http(s), not a
data URI. -/
def relRef (imgPath : List Char) : Bool :=
  !goPfx "/".data imgPath && !goPfx "http://".data imgPath &&
    !goPfx "https://".data imgPath && !goPfx "data:".data imgPath

/-- Lines 291–304: resolve a relative reference against the document's
directory, Clean it, normalize backslashes, and strip a leading slash. -/
def resolveRef (mdDir imgPath : List Char) : List Char :=
  let fullPath :=
    if goPfx "../".data imgPath || goPfx "./".data imgPath then goJoin2 mdDir imgPath
    else if mdDir ≠ [] then goJoin2 mdDir imgPath
    else imgPath
  let fullPath := goClean fullPath
  let fullPath := goReplAll ['\\'] ['/'] fullPath
  if goPfx "/".data fullPath then fullPath.drop 1 else fullPath

/-- The scanning loop of fixImagePaths.  Returns the built output and the
final value of `processed`; when the loop stops because `processed` reached
the ceiling, the output holds only what was written so far, and the caller
falls back to the original input, as the source does. -/
def fixLoopF : Nat → List Char → List Char → List Char → Nat → List Char × Nat
  | 0, _, _, acc, processed => (acc, processed)
  | fuel + 1, mdDir, content, acc, processed =>
    if processed < 1000 then
      match goIndex imgNeedle content with
      | none => (acc ++ content, processed)
      | some st =>
        let acc1 := acc ++ content.take st
        match goIndex ['"'] (content.drop (st + 10)) with
        | none => (acc1 ++ content.drop st, processed)
        | some e =>
          let imgPath := (content.drop (st + 10)).take e
          match goIndex ['>'] (content.drop (st + 10 + e)) with
          | none => (acc1 ++ content.drop st, processed)
          | some te =>
            let origTag := (content.drop st).take (10 + e + te + 1)
            let rest := content.drop (st + 10 + e + te + 1)
            if goContains markerStr origTag then
              fixLoopF fuel mdDir rest (acc1 ++ origTag) processed
            else if relRef imgPath then
              let fullPath := resolveRef mdDir imgPath
              let newTag := goRepl1 origTag (srcAttr imgPath) (srcAttr fullPath ++ insStr)
              fixLoopF fuel mdDir rest (acc1 ++ newTag) (processed + 1)
            else
              let newTag := origTag.take (origTag.length - 1) ++ insStrG
              fixLoopF fuel mdDir rest (acc1 ++ newTag) (processed + 1)
    else (acc, processed)

/-- The base directory of a document (lines 246–249): filepath.Dir, with
`.` normalized to the empty string. -/
def mdDirOf (mdFilePath : List Char) : List Char :=
  let d := goDir mdFilePath
  if d = ['.'] then [] else d

/-- fixImagePaths htmlContent mdFilePath. -/
def fixImagePaths (htmlContent mdFilePath : List Char) : List Char :=
  let r := fixLoopF (htmlContent.length + 1) (mdDirOf mdFilePath) htmlContent [] 0
  if r.2 ≥ 1000 then htmlContent else r.1

/-! ## processMermaidBlocks (obsidian-preview.go, lines 327–369)

Each iteration finds a `<pre><code class="language-mermaid">` (or, failing
that, `<pre><code class="mermaid">`) opener, the `</code></pre>` closer from
the opener onward, decodes the HTML entities of the block body, trims it and
splices in a `<div class="mermaid">…</div>` wrapper.  Lemmas below show each
step shortens the string, so fuel `length + 1` is never exhausted. -/

/-- The long opener (36 characters). -/
def mermLong : List Char := "<pre><code class=\"language-mermaid\">".data

/-- The short opener (27 characters). -/
def mermShort : List Char := "<pre><code class=\"mermaid\">".data

/-- The closing tag (13 characters). -/
def mermEnd : List Char := "</code></pre>".data

/-- The class text whose presence selects the short opener's length. -/
def classMerm : List Char := "class=\"mermaid\"".data

/-- The wrapper's opening text. -/
def divOpen : List Char := "<div class=\"mermaid\">".data

/-- The wrapper's closing text. -/
def divClose : List Char := "</div>".data

/-- Lines 358–361: decode `&lt;`, `&gt;`, `&amp;` in that order, then trim. -/
def decodeEnt (body : List Char) : List Char :=
  goTrim (goReplAll "&amp;".data "&".data
    (goReplAll "&gt;".data ">".data (goReplAll "&lt;".data "<".data body)))

/-- One iteration of the loop: `none` when it breaks (no opener, or no
closer after the opener). -/
def mermaidStep (content : List Char) : Option (List Char) :=
  let startLong := goIndex mermLong content
  let start := match startLong with
    | some st => some st
    | none => goIndex mermShort content
  match start with
  | none => none
  | some st =>
    match goIndex mermEnd (content.drop st) with
    | none => none
    | some e =>
      let endPos := st + e + mermEnd.length
      let codeStart :=
        if goContains classMerm ((content.drop st).take 36) then st + 27 else st + 36
      let codeContent := (content.take (endPos - mermEnd.length)).drop codeStart
      some (content.take st ++ divOpen ++ decodeEnt codeContent ++ divClose ++
        content.drop endPos)

/-- The rewrite loop, fueled. -/
def processMermaidF : Nat → List Char → List Char
  | 0, content => content
  | fuel + 1, content =>
    match mermaidStep content with
    | none => content
    | some content1 => processMermaidF fuel content1

/-- processMermaidBlocks htmlContent. -/
def processMermaidBlocks (htmlContent : List Char) : List Char :=
  processMermaidF (htmlContent.length + 1) htmlContent

/-! ## scanDirectory (obsidian-preview.go, lines 80–133)

The filesystem is modelled as a tree of named entries; os.ReadDir's result is
the entry list of a directory.  scanDirectory sorts the entries (directories
first, then by name), skips hidden names and the reserved directory names,
recurses into directories, attaches a directory node only when its recursive
scan accumulated a child, and appends every markdown file's path to the flat
file list (the source appends to the global mdFiles before deciding whether
the enclosing directory node is attached, which the model mirrors).  The fuel
bounds the recursion depth; every lemma below holds for every fuel value. -/

/-- One directory entry of the modelled filesystem. -/
inductive FsEntry where
  | file (name : List Char)
  | dir (name : List Char) (entries : List FsEntry)

/-- entry.Name(). -/
def entName : FsEntry → List Char
  | .file n => n
  | .dir n _ => n

/-- entry.IsDir(). -/
def entIsDir : FsEntry → Bool
  | .file _ => false
  | .dir _ _ => true

/-- The sort.Slice comparator of lines 87–92: directories before files,
then by name. -/
def entLt (a b : FsEntry) : Bool :=
  if entIsDir a ≠ entIsDir b then entIsDir a else lexLt (entName a) (entName b)

/-- Insert into a list sorted by entLt (after every strictly smaller entry). -/
def insEnt (a : FsEntry) : List FsEntry → List FsEntry
  | [] => [a]
  | b :: bs => if entLt b a then b :: insEnt a bs else a :: b :: bs

/-- The sort of line 87 (entry names of one directory are distinct, so any
sort by this comparator yields the same list; insertion sort realizes it). -/
def sortEnts : List FsEntry → List FsEntry
  | [] => []
  | a :: as => insEnt a (sortEnts as)

/-- The FileNode struct of lines 24–29. -/
structure FileNode where
  name : List Char
  path : List Char
  isDir : Bool
  children : List FileNode

/-- The hidden-name rule of line 98: name starts with `.` and is not `.`. -/
def hiddenName (n : List Char) : Bool := goPfx ".".data n && n ≠ ['.']

/-- Line 126: the name's extension is `.md`, case-insensitively. -/
def mdName (n : List Char) : Bool :=
  goPfx ".md".data.reverse (n.map Char.toLower).reverse

/-- Line 107–110: the child's path, with the root marker producing no
leading segment. -/
def childPath (dirPath n : List Char) : List Char :=
  if dirPath = ['.'] then n else goJoin2 dirPath n

/-- The recursive scan of one directory's entry list: the accumulated child
nodes and markdown paths, in traversal order. -/
def scanListF : Nat → List Char → List FsEntry → List FileNode × List (List Char)
  | 0, _, _ => ([], [])
  | fuel + 1, dirPath, es =>
    (sortEnts es).foldl
      (fun acc ent =>
        let n := entName ent
        if hiddenName n then acc
        else if entIsDir ent && (n = "node_modules".data || n = ".git".data) then acc
        else
          match ent with
          | .dir _ cs =>
            let sub := scanListF fuel (childPath dirPath n) cs
            if sub.1.length > 0 then
              (acc.1 ++ [⟨n, childPath dirPath n, true, sub.1⟩], acc.2 ++ sub.2)
            else (acc.1, acc.2 ++ sub.2)
          | .file _ =>
            if mdName n then
              (acc.1 ++ [⟨n, childPath dirPath n, false, []⟩],
                acc.2 ++ [childPath dirPath n])
            else acc)
      ([], [])

/-- The handling of a single entry, as the fold applies it: the node the
entry contributes (if any) and the markdown paths found beneath it. -/
def scanEntryF (fuel : Nat) (dirPath : List Char) (ent : FsEntry) :
    Option FileNode × List (List Char) :=
  let n := entName ent
  if hiddenName n then (none, [])
  else if entIsDir ent && (n = "node_modules".data || n = ".git".data) then (none, [])
  else
    match ent with
    | .dir _ cs =>
      let sub := scanListF fuel (childPath dirPath n) cs
      if sub.1.length > 0 then (some ⟨n, childPath dirPath n, true, sub.1⟩, sub.2)
      else (none, sub.2)
    | .file _ =>
      if mdName n then (some ⟨n, childPath dirPath n, false, []⟩, [childPath dirPath n])
      else (none, [])

/-- Whether an entry list contains, anywhere beneath it along a path the
scanner would visit, an eligible markdown file (same fuel discipline as the
scanner). -/
def anyEligF : Nat → List FsEntry → Bool
  | 0, _ => false
  | fuel + 1, es =>
    es.any fun ent =>
      match ent with
      | .file n => !hiddenName n && mdName n
      | .dir n cs =>
        !hiddenName n && n ≠ "node_modules".data && n ≠ ".git".data && anyEligF fuel cs

/-- An eligible markdown file reachable beneath a single entry. -/
def eligEntryF (fuel : Nat) : FsEntry → Bool
  | .file n => !hiddenName n && mdName n
  | .dir n cs =>
    !hiddenName n && n ≠ "node_modules".data && n ≠ ".git".data && anyEligF fuel cs

/-- Membership of a node in a forest, transitively (the node itself at some
level of some tree of the list). -/
inductive SubnodeL : FileNode → List FileNode → Prop where
  | head (n : FileNode) (l : List FileNode) : n ∈ l → SubnodeL n l
  | child (n m : FileNode) (l : List FileNode) :
      m ∈ l → SubnodeL n m.children → SubnodeL n l

/-- The child-ordering relation the spec states: directories precede files;
within one kind, names ascend in byte-lexicographic order. -/
def nodeLe (a b : FileNode) : Prop :=
  (a.isDir = true ∧ b.isDir = false) ∨
    (a.isDir = b.isDir ∧ (lexLt a.name b.name = true ∨ a.name = b.name))

/-- Size of a forest of file nodes (fueled, used by the lock-trace model). -/
def nodeCountF : Nat → List FileNode → Nat
  | 0, _ => 0
  | fuel + 1, l => l.foldl (fun k nd => k + 1 + nodeCountF fuel nd.children) 0

/-! ## renderMarkdownFile and the rendered-document map (lines 211–241, 380–393)

File reading and the goldmark conversion are the scanner's I/O boundary: both
are modelled as oracles `List Char → Except (List Char) (List Char)` (the
error side carries the message fmt.Sprintf would print).  renderMarkdownFile
composes them with the two post-processing passes; generateHTML's loop folds
the result into the path-keyed map, recording the inline error fragment on
failure and never aborting. -/

/-- renderMarkdownFile filePath: read, convert, then post-process. -/
def renderMarkdownFile (readF convert : List Char → Except (List Char) (List Char))
    (filePath : List Char) : Except (List Char) (List Char) := do
  let content ← readF filePath
  let buf ← convert content
  pure (processMermaidBlocks (fixImagePaths buf filePath))

/-- The inline error fragment of line 389. -/
def errFragment (e : List Char) : List Char :=
  "<p>渲染错误: ".data ++ e ++ "</p>".data

/-- The value generateHTML stores for one path. -/
def renderedValue (readF convert : List Char → Except (List Char) (List Char))
    (filePath : List Char) : List Char :=
  match renderMarkdownFile readF convert filePath with
  | .ok htmlContent => htmlContent
  | .error e => errFragment e

/-- Go's map assignment `m[k] = v`: replace the key's entry or add one. -/
def mapIns (k v : List Char) : List (List Char × List Char) → List (List Char × List Char)
  | [] => [(k, v)]
  | (a, b) :: t => if a = k then (a, v) :: t else (a, b) :: mapIns k v t

/-- Map lookup. -/
def lookupKV (m : List (List Char × List Char)) (k : List Char) : Option (List Char) :=
  match m with
  | [] => none
  | (a, b) :: t => if a = k then some b else lookupKV t k

/-- How many entries of the map carry the key. -/
def countKey (m : List (List Char × List Char)) (k : List Char) : Nat :=
  match m with
  | [] => 0
  | (a, _) :: t => (if a = k then 1 else 0) + countKey t k

/-- The filesData loop of lines 380–393: every scanned file gets exactly the
value renderMarkdownFile produces for it, an error degrading to the inline
fragment. -/
def buildFilesData (readF convert : List Char → Except (List Char) (List Char))
    (files : List (List Char)) : List (List Char × List Char) :=
  files.foldl (fun m p => mapIns p (renderedValue readF convert p) m) []

/-! ## The artifact write of generateHTML (lines 1108–1122)

The destination file's observable content is modelled through the two steps
the source performs: os.Create, which truncates the destination to empty the
moment it succeeds, and template.Execute, which streams the rendered bytes
into the open file and can fail midway (modelled by an optional prefix
length at which the write stops).  json.Marshal failures (lines 373–377,
397–400) return before os.Create and leave the file untouched. -/

/-- The destination file: `none` when absent, otherwise its content. -/
structure DiskFile where
  content : Option (List Char)

/-- os.Create outputFile: truncate (or create) to empty. -/
def osCreate (_prev : DiskFile) : DiskFile := ⟨some []⟩

/-- t.Execute file data: append the output, stopping early at a failure. -/
def tmplExecute (_f : DiskFile) (out : List Char) (failAt : Option Nat) : DiskFile :=
  match failAt with
  | none => ⟨some out⟩
  | some k => ⟨some (out.take k)⟩

/-- The artifact write: final file state and the trace of file states a
concurrent reader of the destination can observe (after create, after the
write).  `marshalOk = false` is the serialization-error early return. -/
def emitArtifact (prev : DiskFile) (out : List Char) (marshalOk : Bool)
    (failAt : Option Nat) : DiskFile × List DiskFile :=
  if marshalOk then
    let f1 := osCreate prev
    let f2 := tmplExecute f1 out failAt
    (f2, [f1, f2])
  else (prev, [])

/-! ## The lock trace of rescanDirectory and generateHTML (lines 71–78, 371–393)

rescanDirectory takes the write lock, resets the two shared globals
(`mdFiles = []`, `fileTree = &FileNode{…}`), lets scanDirectory append every
node and markdown path directly into those globals, and releases the lock on
return — so the whole build of the published tree happens inside the critical
section.  generateHTML takes the read lock only around the tree
serialization and then iterates the shared mdFiles slice with no lock held.
Each shared-state access becomes one trace event. -/

/-- Events on the shared published state. -/
inductive SyncEv where
  | lockW | unlockW | lockR | unlockR
  | writeShared
  | readShared
deriving DecidableEq

/-- The trace of rescanDirectory: lock, the two resets plus one write per
node attached and per markdown path appended by scanDirectory, unlock. -/
def rescanEvs (fuel : Nat) (es : List FsEntry) : List SyncEv :=
  let scanned := scanListF fuel ['.'] es
  [SyncEv.lockW] ++
    List.replicate (2 + nodeCountF fuel scanned.1 + scanned.2.length) SyncEv.writeShared ++
    [SyncEv.unlockW]

/-- The trace of generateHTML: the tree serialization under the read lock,
then one unlocked shared read of mdFiles per rendered file. -/
def genEvs (files : List (List Char)) : List SyncEv :=
  [SyncEv.lockR, SyncEv.readShared, SyncEv.unlockR] ++
    List.replicate files.length SyncEv.readShared

/-- The events strictly between the write-lock acquisition and its release. -/
def betweenLock (t : List SyncEv) : List SyncEv :=
  ((t.dropWhile (· ≠ SyncEv.lockW)).drop 1).takeWhile (· ≠ SyncEv.unlockW)

/-- The claim's lock policy: the write lock is held for at most the single
pointer-replacement store. -/
def lockOnlyInstant (t : List SyncEv) : Prop := (betweenLock t).length ≤ 1

/-- A read oracle for concrete runs: one unreadable file, fixed text elsewhere. -/
def readOracle : List Char → Except (List Char) (List Char) := fun p =>
  if p = "bad.md".data then Except.error "open bad.md: no such file".data
  else Except.ok "hello".data

/-- A conversion oracle for concrete runs: wrap the text in a paragraph. -/
def convOracle : List Char → Except (List Char) (List Char) := fun c =>
  Except.ok ("<p>".data ++ c ++ "</p>".data)

/-- The fold body of the scanner, phrased through scanEntryF. -/
def scanBody (fuel : Nat) (dirPath : List Char)
    (acc : List FileNode × List (List Char)) (ent : FsEntry) :
    List FileNode × List (List Char) :=
  (acc.1 ++ (scanEntryF fuel dirPath ent).1.toList,
   acc.2 ++ (scanEntryF fuel dirPath ent).2)

/-- The nodes an entry list contributes, in order. -/
def scanNodes (fuel : Nat) (dirPath : List Char) : List FsEntry → List FileNode
  | [] => []
  | e :: t => (scanEntryF fuel dirPath e).1.toList ++ scanNodes fuel dirPath t

/-! ## Characterization of the string primitives -/

theorem goPfx_iff (n s : List Char) : goPfx n s = true ↔ s.take n.length = n := by
  induction n generalizing s with
  | nil => simp [goPfx]
  | cons a as ih =>
    cases s with
    | nil => simp [goPfx]
    | cons b bs =>
      simp only [goPfx, List.length_cons, List.take_succ_cons, Bool.and_eq_true,
        beq_iff_eq, List.cons.injEq, ih]
      constructor
      · rintro ⟨h1, h2⟩; exact ⟨h1.symm, h2⟩
      · rintro ⟨h1, h2⟩; exact ⟨h1.symm, h2⟩

theorem goPfx_length {n s : List Char} (h : goPfx n s = true) : n.length ≤ s.length := by
  rw [goPfx_iff] at h
  have := congrArg List.length h
  simp only [List.length_take] at this
  omega

theorem goPfx_append_left {n a : List Char} (b : List Char) (h : n.length ≤ a.length) :
    goPfx n (a ++ b) = goPfx n a := by
  have h1 : (a ++ b).take n.length = a.take n.length := List.take_append_of_le_length h
  refine Bool.eq_iff_iff.mpr ?_
  rw [goPfx_iff, goPfx_iff, h1]

theorem goPfx_append_same (a b c : List Char) : goPfx (a ++ b) (a ++ c) = goPfx b c := by
  induction a with
  | nil => rfl
  | cons x xs ih => simp [goPfx, ih]

theorem goPfx_refl_append (a b : List Char) : goPfx a (a ++ b) = true := by
  have := goPfx_append_same a [] b
  simpa using this

theorem goPfx_getElem {n s : List Char} (h : goPfx n s = true) (i : Nat)
    (hi : i < n.length) : s[i]? = n[i]? := by
  rw [goPfx_iff] at h
  have h2 : (s.take n.length)[i]? = n[i]? := by rw [h]
  rw [List.getElem?_take, if_pos hi] at h2
  exact h2

theorem goIndex_pfx {n s : List Char} {i : Nat} (h : goIndex n s = some i) :
    goPfx n (s.drop i) = true := by
  induction s generalizing i with
  | nil =>
    rw [goIndex.eq_def] at h
    by_cases hp : goPfx n [] = true
    · simp only [hp, if_true, Option.some.injEq] at h; subst h; simpa using hp
    · rw [Bool.not_eq_true] at hp; simp [hp] at h
  | cons c t ih =>
    rw [goIndex.eq_def] at h
    by_cases hp : goPfx n (c :: t) = true
    · simp only [hp, if_true, Option.some.injEq] at h; subst h; simpa using hp
    · rw [Bool.not_eq_true] at hp
      simp only [hp, Bool.false_eq_true, if_false] at h
      cases hx : goIndex n t with
      | none => rw [hx] at h; simp at h
      | some k =>
        rw [hx] at h
        simp only [Option.map_some', Option.some.injEq] at h
        subst h
        simpa [List.drop_succ_cons] using ih hx

theorem goIndex_min {n s : List Char} {i : Nat} (h : goIndex n s = some i) :
    ∀ j < i, goPfx n (s.drop j) = false := by
  induction s generalizing i with
  | nil =>
    intro j hj
    rw [goIndex.eq_def] at h
    by_cases hp : goPfx n [] = true
    · simp only [hp, if_true, Option.some.injEq] at h; omega
    · rw [Bool.not_eq_true] at hp; simp [hp] at h
  | cons c t ih =>
    intro j hj
    rw [goIndex.eq_def] at h
    by_cases hp : goPfx n (c :: t) = true
    · simp only [hp, if_true, Option.some.injEq] at h; omega
    · rw [Bool.not_eq_true] at hp
      simp only [hp, Bool.false_eq_true, if_false] at h
      cases hx : goIndex n t with
      | none => rw [hx] at h; simp at h
      | some k =>
        rw [hx] at h
        simp only [Option.map_some', Option.some.injEq] at h
        subst h
        cases j with
        | zero => simpa using hp
        | succ j0 => simpa [List.drop_succ_cons] using ih hx j0 (by omega)

theorem goIndex_none {n s : List Char} (h : goIndex n s = none) :
    ∀ j, goPfx n (s.drop j) = false := by
  induction s with
  | nil =>
    intro j
    rw [goIndex.eq_def] at h
    by_cases hp : goPfx n [] = true
    · simp [hp] at h
    · rw [Bool.not_eq_true] at hp; simpa using hp
  | cons c t ih =>
    intro j
    rw [goIndex.eq_def] at h
    by_cases hp : goPfx n (c :: t) = true
    · simp [hp] at h
    · rw [Bool.not_eq_true] at hp
      simp only [hp, Bool.false_eq_true, if_false] at h
      cases hx : goIndex n t with
      | some k => rw [hx] at h; simp at h
      | none =>
        cases j with
        | zero => simpa using hp
        | succ j0 => simpa [List.drop_succ_cons] using ih hx j0

theorem goIndex_of {n s : List Char} {i : Nat} (hp : goPfx n (s.drop i) = true)
    (hm : ∀ j < i, goPfx n (s.drop j) = false) : goIndex n s = some i := by
  induction s generalizing i with
  | nil =>
    cases i with
    | zero => rw [goIndex.eq_def]; simp only [List.drop_nil] at hp; simp [hp]
    | succ i0 =>
      exfalso
      have h0 := hm 0 (by omega)
      simp only [List.drop_nil] at hp h0
      rw [hp] at h0; cases h0
  | cons c t ih =>
    cases i with
    | zero => rw [goIndex.eq_def]; simp only [List.drop_zero] at hp; simp [hp]
    | succ i0 =>
      have h0 := hm 0 (by omega)
      simp only [List.drop_zero] at h0
      rw [goIndex.eq_def, h0]
      simp only [Bool.false_eq_true, if_false]
      have hrec : goIndex n t = some i0 := by
        refine ih ?_ ?_
        · simpa [List.drop_succ_cons] using hp
        · intro j hj
          simpa [List.drop_succ_cons] using hm (j + 1) (by omega)
      rw [hrec]; rfl

theorem goIndex_le_length {n s : List Char} {i : Nat} (h : goIndex n s = some i) :
    i ≤ s.length := by
  induction s generalizing i with
  | nil =>
    rw [goIndex.eq_def] at h
    by_cases hp : goPfx n [] = true
    · simp only [hp, if_true, Option.some.injEq] at h; omega
    · rw [Bool.not_eq_true] at hp; simp [hp] at h
  | cons c t ih =>
    rw [goIndex.eq_def] at h
    by_cases hp : goPfx n (c :: t) = true
    · simp only [hp, if_true, Option.some.injEq] at h; omega
    · rw [Bool.not_eq_true] at hp
      simp only [hp, Bool.false_eq_true, if_false] at h
      cases hx : goIndex n t with
      | none => rw [hx] at h; simp at h
      | some k =>
        rw [hx] at h
        simp only [Option.map_some', Option.some.injEq] at h
        subst h
        have := ih hx
        simp only [List.length_cons]
        omega

theorem goIndex_bound {n s : List Char} {i : Nat} (h : goIndex n s = some i) :
    i + n.length ≤ s.length := by
  have hp := goIndex_pfx h
  have h2 := goPfx_length hp
  rw [List.length_drop] at h2
  have h3 := goIndex_le_length h
  omega

theorem goIndex_zero {n s : List Char} (hp : goPfx n s = true) : goIndex n s = some 0 := by
  rw [goIndex.eq_def, hp]; rfl

/-! ## Locality of occurrences -/

theorem goPfx_congr_take {n s t : List Char} (h : s.take n.length = t.take n.length) :
    goPfx n s = goPfx n t := by
  refine Bool.eq_iff_iff.mpr ?_
  rw [goPfx_iff, goPfx_iff, h]

theorem goPfx_drop_congr {n r s : List Char} {K j : Nat} (hK : r.take K = s.take K)
    (hj : j + n.length ≤ K) : goPfx n (r.drop j) = goPfx n (s.drop j) := by
  apply goPfx_congr_take
  have h1 : ∀ x : List Char, (x.drop j).take n.length = ((x.take K).drop j).take n.length := by
    intro x
    rw [List.drop_take, List.take_take]
    congr 1
    omega
  rw [h1 r, h1 s, hK]

theorem goIndex_append_right {n a b : List Char} {k : Nat}
    (hnoa : ∀ j < a.length, goPfx n ((a ++ b).drop j) = false)
    (hb : goIndex n b = some k) : goIndex n (a ++ b) = some (a.length + k) := by
  refine goIndex_of ?_ ?_
  · rw [List.drop_append]
    exact goIndex_pfx hb
  · intro j hj
    by_cases hja : j < a.length
    · exact hnoa j hja
    · have : j = a.length + (j - a.length) := by omega
      rw [this, List.drop_append]
      exact goIndex_min hb (j - a.length) (by omega)

theorem goIndex_append_none {n a b : List Char}
    (hnoa : ∀ j < a.length, goPfx n ((a ++ b).drop j) = false)
    (hb : goIndex n b = none) : goIndex n (a ++ b) = none := by
  cases hx : goIndex n (a ++ b) with
  | none => rfl
  | some i =>
    exfalso
    have hp := goIndex_pfx hx
    by_cases hia : i < a.length
    · rw [hnoa i hia] at hp; cases hp
    · have : i = a.length + (i - a.length) := by omega
      rw [this, List.drop_append] at hp
      rw [goIndex_none hb (i - a.length)] at hp
      cases hp

/-! ## Length and membership facts about the primitives -/

theorem goReplAllF_succ (f : Nat) (o nw s : List Char) :
    goReplAllF (f + 1) o nw s =
      match o with
      | [] => s
      | _ :: _ =>
        match goIndex o s with
        | none => s
        | some i => s.take i ++ nw ++ goReplAllF f o nw (s.drop (i + o.length)) := rfl

theorem goReplAllF_length {o nw : List Char} (hle : nw.length ≤ o.length) :
    ∀ fuel s, (goReplAllF fuel o nw s).length ≤ s.length := by
  intro fuel
  induction fuel with
  | zero => intro s; simp [goReplAllF]
  | succ f ih =>
    intro s
    rw [goReplAllF_succ]
    cases o with
    | nil => exact Nat.le_refl _
    | cons c cs =>
      cases hx : goIndex (c :: cs) s with
      | none => simp only [hx]; exact Nat.le_refl _
      | some i =>
        simp only [hx]
        have hb := goIndex_bound hx
        have hr := ih (s.drop (i + (c :: cs).length))
        have hti : (s.take i).length = i := by
          rw [List.length_take]
          have h9 : i + (c :: cs).length ≤ s.length := hb
          omega
        simp only [List.length_append, hti, List.length_drop] at *
        omega

theorem goReplAllF_mem {o nw : List Char} :
    ∀ fuel s c, c ∈ goReplAllF fuel o nw s → c ∈ s ∨ c ∈ nw := by
  intro fuel
  induction fuel with
  | zero => intro s c hc; exact Or.inl hc
  | succ f ih =>
    intro s c hc
    rw [goReplAllF_succ] at hc
    cases o with
    | nil => exact Or.inl hc
    | cons x xs =>
      cases hx : goIndex (x :: xs) s with
      | none => simp only [hx] at hc; exact Or.inl hc
      | some i =>
        simp only [hx] at hc
        simp only [List.mem_append] at hc
        rcases hc with (hc | hc) | hc
        · exact Or.inl (List.mem_of_mem_take hc)
        · exact Or.inr hc
        · rcases ih _ c hc with h | h
          · exact Or.inl (List.mem_of_mem_drop h)
          · exact Or.inr h

theorem goTrim_length (s : List Char) : (goTrim s).length ≤ s.length := by
  unfold goTrim
  have h1 : (s.dropWhile goSpace).length ≤ s.length := (List.dropWhile_sublist goSpace).length_le
  have h2 : ((s.dropWhile goSpace).reverse.dropWhile goSpace).length ≤
      (s.dropWhile goSpace).reverse.length := (List.dropWhile_sublist goSpace).length_le
  simp only [List.length_reverse] at *
  omega

theorem goTrim_mem {s : List Char} {c : Char} (hc : c ∈ goTrim s) : c ∈ s := by
  unfold goTrim at hc
  rw [List.mem_reverse] at hc
  have h1 := (List.dropWhile_sublist goSpace).mem hc
  rw [List.mem_reverse] at h1
  exact (List.dropWhile_sublist goSpace).mem h1

/-! ## Branch equations of the fixImagePaths loop -/

theorem fixLoopF_succ (fuel : Nat) (mdDir content acc : List Char) (processed : Nat) :
    fixLoopF (fuel + 1) mdDir content acc processed =
      if processed < 1000 then
        match goIndex imgNeedle content with
        | none => (acc ++ content, processed)
        | some st =>
          let acc1 := acc ++ content.take st
          match goIndex ['"'] (content.drop (st + 10)) with
          | none => (acc1 ++ content.drop st, processed)
          | some e =>
            let imgPath := (content.drop (st + 10)).take e
            match goIndex ['>'] (content.drop (st + 10 + e)) with
            | none => (acc1 ++ content.drop st, processed)
            | some te =>
              let origTag := (content.drop st).take (10 + e + te + 1)
              let rest := content.drop (st + 10 + e + te + 1)
              if goContains markerStr origTag then
                fixLoopF fuel mdDir rest (acc1 ++ origTag) processed
              else if relRef imgPath then
                let fullPath := resolveRef mdDir imgPath
                let newTag := goRepl1 origTag (srcAttr imgPath) (srcAttr fullPath ++ insStr)
                fixLoopF fuel mdDir rest (acc1 ++ newTag) (processed + 1)
              else
                let newTag := origTag.take (origTag.length - 1) ++ insStrG
                fixLoopF fuel mdDir rest (acc1 ++ newTag) (processed + 1)
      else (acc, processed) := rfl

theorem fixLoopF_ceiling (fuel : Nat) (mdDir content acc : List Char) {n : Nat}
    (hn : ¬ n < 1000) : fixLoopF (fuel + 1) mdDir content acc n = (acc, n) := by
  rw [fixLoopF_succ, if_neg hn]

theorem fixLoopF_none (fuel : Nat) (mdDir content acc : List Char) {n : Nat}
    (hn : n < 1000) (h1 : goIndex imgNeedle content = none) :
    fixLoopF (fuel + 1) mdDir content acc n = (acc ++ content, n) := by
  rw [fixLoopF_succ, if_pos hn, h1]

theorem fixLoopF_noquote (fuel : Nat) (mdDir content acc : List Char) {n st : Nat}
    (hn : n < 1000) (h1 : goIndex imgNeedle content = some st)
    (h2 : goIndex ['"'] (content.drop (st + 10)) = none) :
    fixLoopF (fuel + 1) mdDir content acc n = ((acc ++ content.take st) ++ content.drop st, n) := by
  rw [fixLoopF_succ, if_pos hn, h1]
  simp only [h2]

theorem fixLoopF_nogt (fuel : Nat) (mdDir content acc : List Char) {n st e : Nat}
    (hn : n < 1000) (h1 : goIndex imgNeedle content = some st)
    (h2 : goIndex ['"'] (content.drop (st + 10)) = some e)
    (h3 : goIndex ['>'] (content.drop (st + 10 + e)) = none) :
    fixLoopF (fuel + 1) mdDir content acc n = ((acc ++ content.take st) ++ content.drop st, n) := by
  rw [fixLoopF_succ, if_pos hn, h1]
  simp only [h2, h3]

theorem fixLoopF_marker (fuel : Nat) (mdDir content acc : List Char) {n st e te : Nat}
    (hn : n < 1000) (h1 : goIndex imgNeedle content = some st)
    (h2 : goIndex ['"'] (content.drop (st + 10)) = some e)
    (h3 : goIndex ['>'] (content.drop (st + 10 + e)) = some te)
    (hm : goContains markerStr ((content.drop st).take (10 + e + te + 1)) = true) :
    fixLoopF (fuel + 1) mdDir content acc n =
      fixLoopF fuel mdDir (content.drop (st + 10 + e + te + 1))
        ((acc ++ content.take st) ++ (content.drop st).take (10 + e + te + 1)) n := by
  rw [fixLoopF_succ, if_pos hn, h1]
  simp only [h2, h3, hm, if_true]

theorem fixLoopF_rel (fuel : Nat) (mdDir content acc : List Char) {n st e te : Nat}
    (hn : n < 1000) (h1 : goIndex imgNeedle content = some st)
    (h2 : goIndex ['"'] (content.drop (st + 10)) = some e)
    (h3 : goIndex ['>'] (content.drop (st + 10 + e)) = some te)
    (hm : goContains markerStr ((content.drop st).take (10 + e + te + 1)) = false)
    (hr : relRef ((content.drop (st + 10)).take e) = true) :
    fixLoopF (fuel + 1) mdDir content acc n =
      fixLoopF fuel mdDir (content.drop (st + 10 + e + te + 1))
        ((acc ++ content.take st) ++
          goRepl1 ((content.drop st).take (10 + e + te + 1))
            (srcAttr ((content.drop (st + 10)).take e))
            (srcAttr (resolveRef mdDir ((content.drop (st + 10)).take e)) ++ insStr))
        (n + 1) := by
  rw [fixLoopF_succ, if_pos hn, h1]
  simp only [h2, h3, hm, hr, Bool.false_eq_true, if_false, if_true]

theorem fixLoopF_abs (fuel : Nat) (mdDir content acc : List Char) {n st e te : Nat}
    (hn : n < 1000) (h1 : goIndex imgNeedle content = some st)
    (h2 : goIndex ['"'] (content.drop (st + 10)) = some e)
    (h3 : goIndex ['>'] (content.drop (st + 10 + e)) = some te)
    (hm : goContains markerStr ((content.drop st).take (10 + e + te + 1)) = false)
    (hr : relRef ((content.drop (st + 10)).take e) = false) :
    fixLoopF (fuel + 1) mdDir content acc n =
      fixLoopF fuel mdDir (content.drop (st + 10 + e + te + 1))
        ((acc ++ content.take st) ++
          (((content.drop st).take (10 + e + te + 1)).take
            (((content.drop st).take (10 + e + te + 1)).length - 1) ++ insStrG))
        (n + 1) := by
  rw [fixLoopF_succ, if_pos hn, h1]
  simp only [h2, h3, hm, hr, Bool.false_eq_true, if_false]

/-- The accumulator only collects output: the loop's result is the
empty-accumulator result appended to the starting accumulator. -/
theorem fixLoopF_acc (fuel : Nat) (mdDir : List Char) :
    ∀ content acc n, fixLoopF fuel mdDir content acc n =
      (acc ++ (fixLoopF fuel mdDir content [] n).1, (fixLoopF fuel mdDir content [] n).2) := by
  induction fuel with
  | zero => intro content acc n; simp [fixLoopF]
  | succ f ih =>
    intro content acc n
    by_cases hn : n < 1000
    · cases h1 : goIndex imgNeedle content with
      | none => rw [fixLoopF_none f mdDir content acc hn h1,
          fixLoopF_none f mdDir content [] hn h1]; simp
      | some st =>
        cases h2 : goIndex ['"'] (content.drop (st + 10)) with
        | none => rw [fixLoopF_noquote f mdDir content acc hn h1 h2,
            fixLoopF_noquote f mdDir content [] hn h1 h2]; simp
        | some e =>
          cases h3 : goIndex ['>'] (content.drop (st + 10 + e)) with
          | none => rw [fixLoopF_nogt f mdDir content acc hn h1 h2 h3,
              fixLoopF_nogt f mdDir content [] hn h1 h2 h3]; simp
          | some te =>
            cases hm : goContains markerStr ((content.drop st).take (10 + e + te + 1)) with
            | true =>
              rw [fixLoopF_marker f mdDir content acc hn h1 h2 h3 hm,
                fixLoopF_marker f mdDir content [] hn h1 h2 h3 hm]
              rw [ih (content.drop (st + 10 + e + te + 1))
                  ((acc ++ content.take st) ++ (content.drop st).take (10 + e + te + 1)) n,
                ih (content.drop (st + 10 + e + te + 1))
                  (([] ++ content.take st) ++ (content.drop st).take (10 + e + te + 1)) n]
              simp [List.append_assoc]
            | false =>
              cases hr : relRef ((content.drop (st + 10)).take e) with
              | true =>
                rw [fixLoopF_rel f mdDir content acc hn h1 h2 h3 hm hr,
                  fixLoopF_rel f mdDir content [] hn h1 h2 h3 hm hr]
                rw [ih (content.drop (st + 10 + e + te + 1))
                    ((acc ++ content.take st) ++
                      goRepl1 ((content.drop st).take (10 + e + te + 1))
                        (srcAttr ((content.drop (st + 10)).take e))
                        (srcAttr (resolveRef mdDir ((content.drop (st + 10)).take e)) ++ insStr))
                    (n + 1),
                  ih (content.drop (st + 10 + e + te + 1))
                    (([] ++ content.take st) ++
                      goRepl1 ((content.drop st).take (10 + e + te + 1))
                        (srcAttr ((content.drop (st + 10)).take e))
                        (srcAttr (resolveRef mdDir ((content.drop (st + 10)).take e)) ++ insStr))
                    (n + 1)]
                simp [List.append_assoc]
              | false =>
                rw [fixLoopF_abs f mdDir content acc hn h1 h2 h3 hm hr,
                  fixLoopF_abs f mdDir content [] hn h1 h2 h3 hm hr]
                rw [ih (content.drop (st + 10 + e + te + 1))
                    ((acc ++ content.take st) ++
                      (((content.drop st).take (10 + e + te + 1)).take
                        (((content.drop st).take (10 + e + te + 1)).length - 1) ++ insStrG))
                    (n + 1),
                  ih (content.drop (st + 10 + e + te + 1))
                    (([] ++ content.take st) ++
                      (((content.drop st).take (10 + e + te + 1)).take
                        (((content.drop st).take (10 + e + te + 1)).length - 1) ++ insStrG))
                    (n + 1)]
                simp [List.append_assoc]
    · rw [fixLoopF_ceiling f mdDir content acc hn, fixLoopF_ceiling f mdDir content [] hn]
      simp

/-! ## Settled strings: inputs the image loop copies through unchanged

A string is Settled when every image tag its scan identifies either is
malformed (so the loop emits the remainder verbatim) or already carries the
click-affordance marker (so the loop copies it unchanged and moves on). -/

inductive Settled : List Char → Prop where
  | noTag (s : List Char) : goIndex imgNeedle s = none → Settled s
  | noQuote (s : List Char) (st : Nat) : goIndex imgNeedle s = some st →
      goIndex ['"'] (s.drop (st + 10)) = none → Settled s
  | noGt (s : List Char) (st e : Nat) : goIndex imgNeedle s = some st →
      goIndex ['"'] (s.drop (st + 10)) = some e →
      goIndex ['>'] (s.drop (st + 10 + e)) = none → Settled s
  | marked (s : List Char) (st e te : Nat) : goIndex imgNeedle s = some st →
      goIndex ['"'] (s.drop (st + 10)) = some e →
      goIndex ['>'] (s.drop (st + 10 + e)) = some te →
      goContains markerStr ((s.drop st).take (10 + e + te + 1)) = true →
      Settled (s.drop (st + 10 + e + te + 1)) → Settled s

theorem imgNeedle_length : imgNeedle.length = 10 := by decide

/-- On a Settled string the loop is the identity (with enough fuel and the
rewrite counter below the ceiling, which it never advances). -/
theorem settled_fixLoopF {s : List Char} (hs : Settled s) :
    ∀ fuel mdDir acc n, s.length < fuel → n < 1000 →
      fixLoopF fuel mdDir s acc n = (acc ++ s, n) := by
  induction hs with
  | noTag s h1 =>
    intro fuel mdDir acc n hfuel hn
    cases fuel with
    | zero => omega
    | succ f => exact fixLoopF_none f mdDir s acc hn h1
  | noQuote s st h1 h2 =>
    intro fuel mdDir acc n hfuel hn
    cases fuel with
    | zero => omega
    | succ f =>
      rw [fixLoopF_noquote f mdDir s acc hn h1 h2, List.append_assoc,
        List.take_append_drop]
  | noGt s st e h1 h2 h3 =>
    intro fuel mdDir acc n hfuel hn
    cases fuel with
    | zero => omega
    | succ f =>
      rw [fixLoopF_nogt f mdDir s acc hn h1 h2 h3, List.append_assoc,
        List.take_append_drop]
  | marked s st e te h1 h2 h3 hm htail ih =>
    intro fuel mdDir acc n hfuel hn
    cases fuel with
    | zero => omega
    | succ f =>
      rw [fixLoopF_marker f mdDir s acc hn h1 h2 h3 hm]
      have hst := goIndex_bound h1
      rw [imgNeedle_length] at hst
      have htl : (s.drop (st + 10 + e + te + 1)).length < f := by
        rw [List.length_drop]
        omega
      rw [ih f mdDir ((acc ++ s.take st) ++ (s.drop st).take (10 + e + te + 1)) n htl hn]
      have hsplit : s.take st ++ (s.drop st).take (10 + e + te + 1) =
          s.take (st + (10 + e + te + 1)) := (List.take_add s st (10 + e + te + 1)).symm
      rw [List.append_assoc, List.append_assoc, ← List.append_assoc (s.take st), hsplit]
      have : st + (10 + e + te + 1) = st + 10 + e + te + 1 := by omega
      rw [this, List.take_append_drop]

/-! ## Single-character occurrences -/

theorem singleton_pfx_iff {c : Char} {x : List Char} :
    goPfx [c] x = true ↔ x[0]? = some c := by
  cases x with
  | nil => simp [goPfx]
  | cons y ys =>
    simp only [goPfx, Bool.and_eq_true, beq_iff_eq, List.getElem?_cons_zero,
      Option.some.injEq]
    constructor
    · rintro ⟨h, _⟩; exact h.symm
    · intro h; exact ⟨h.symm, trivial⟩

theorem singleton_no_mem_take {c : Char} {l : List Char} {e : Nat}
    (h : goIndex [c] l = some e) : c ∉ l.take e := by
  intro hc
  obtain ⟨j, hj⟩ := List.mem_iff_getElem?.mp hc
  rw [List.getElem?_take] at hj
  by_cases hje : j < e
  · rw [if_pos hje] at hj
    have hp : goPfx [c] (l.drop j) = true := by
      rw [singleton_pfx_iff, List.getElem?_drop]
      simpa using hj
    rw [goIndex_min h j hje] at hp
    cases hp
  · rw [if_neg hje] at hj; cases hj

theorem singleton_index_append {c : Char} {p Y : List Char} (hc : c ∉ p) :
    goIndex [c] (p ++ c :: Y) = some p.length := by
  refine goIndex_of ?_ ?_
  · rw [List.drop_left, singleton_pfx_iff]
    simp
  · intro j hj
    rw [← Bool.not_eq_true, singleton_pfx_iff, List.getElem?_drop]
    rw [List.getElem?_append, if_pos (by omega : j + 0 < p.length)]
    intro hmem
    exact hc (List.getElem?_mem hmem)

/-! ## Settled under composition -/

/-- A string whose scan front is a marked, well-delimited tag is Settled when
the remainder after the tag is. -/
theorem settled_tag {path body w : List Char}
    (hq : '"' ∉ path) (hg : '>' ∉ body)
    (hmark : goContains markerStr (imgNeedle ++ path ++ '"' :: body ++ ['>']) = true)
    (hw : Settled w) :
    Settled ((imgNeedle ++ path ++ '"' :: body ++ ['>']) ++ w) := by
  have hshape : (imgNeedle ++ path ++ '"' :: body ++ ['>']) ++ w =
      imgNeedle ++ (path ++ '"' :: (body ++ '>' :: w)) := by simp
  have hlen10 : imgNeedle.length = 10 := imgNeedle_length
  refine Settled.marked _ 0 path.length (body.length + 1) ?_ ?_ ?_ ?_ ?_
  · apply goIndex_zero
    rw [hshape]
    exact goPfx_refl_append _ _
  · rw [hshape]
    have : (0:Nat) + 10 = imgNeedle.length := by omega
    rw [this, List.drop_left]
    exact singleton_index_append hq
  · rw [hshape]
    have h0 : (0:Nat) + 10 + path.length = imgNeedle.length + path.length := by omega
    rw [h0, ← List.length_append imgNeedle path, ← List.append_assoc, List.drop_left]
    have hg2 : '>' ∉ '"' :: body := by
      intro hmem
      rcases List.mem_cons.mp hmem with h | h
      · cases h
      · exact hg h
    have := singleton_index_append (p := '"' :: body) (Y := w) hg2
    simpa using this
  · rw [List.drop_zero]
    have hK : 10 + path.length + (body.length + 1) + 1 =
        (imgNeedle ++ path ++ '"' :: body ++ ['>']).length := by
      simp [hlen10]
      omega
    rw [hK, List.take_left]
    exact hmark
  · have hK : (0:Nat) + 10 + path.length + (body.length + 1) + 1 =
        (imgNeedle ++ path ++ '"' :: body ++ ['>']).length := by
      simp [hlen10]
      omega
    rw [hK, List.drop_left]
    exact hw

/-- Prepending a piece free of needle occurrences preserves Settled. -/
theorem settled_prepend {p z : List Char}
    (hno : ∀ j < p.length, goPfx imgNeedle ((p ++ z).drop j) = false)
    (hz : Settled z) : Settled (p ++ z) := by
  cases hz with
  | noTag s h1 => exact Settled.noTag _ (goIndex_append_none hno h1)
  | noQuote s st h1 h2 =>
    refine Settled.noQuote _ (p.length + st) (goIndex_append_right hno h1) ?_
    rw [show p.length + st + 10 = p.length + (st + 10) by omega, List.drop_append]
    exact h2
  | noGt s st e h1 h2 h3 =>
    refine Settled.noGt _ (p.length + st) e (goIndex_append_right hno h1) ?_ ?_
    · rw [show p.length + st + 10 = p.length + (st + 10) by omega, List.drop_append]
      exact h2
    · rw [show p.length + st + 10 + e = p.length + (st + 10 + e) by omega, List.drop_append]
      exact h3
  | marked s st e te h1 h2 h3 hm htail =>
    refine Settled.marked _ (p.length + st) e te (goIndex_append_right hno h1) ?_ ?_ ?_ ?_
    · rw [show p.length + st + 10 = p.length + (st + 10) by omega, List.drop_append]
      exact h2
    · rw [show p.length + st + 10 + e = p.length + (st + 10 + e) by omega, List.drop_append]
      exact h3
    · rw [List.drop_append]
      exact hm
    · rw [show p.length + st + 10 + e + te + 1 = p.length + (st + 10 + e + te + 1) by omega,
        List.drop_append]
      exact htail

/-- Before the scan position of the first needle occurrence, the output piece
written so far (any text agreeing with the input up to the occurrence's end)
has no needle occurrence either. -/
theorem prefix_piece_no_occ {s tagW : List Char} {st : Nat}
    (h1 : goIndex imgNeedle s = some st)
    (hpfx : goPfx imgNeedle tagW = true) :
    ∀ j < (s.take st).length, goPfx imgNeedle ((s.take st ++ tagW).drop j) = false := by
  intro j hj
  have hst : st + 10 ≤ s.length := by
    have := goIndex_bound h1; rwa [imgNeedle_length] at this
  have hlen : (s.take st).length = st := by rw [List.length_take]; omega
  rw [hlen] at hj
  have htag10 : tagW.take 10 = imgNeedle := by
    have := (goPfx_iff imgNeedle tagW).mp hpfx
    rwa [imgNeedle_length] at this
  have hs10 : (s.drop st).take 10 = imgNeedle := by
    have := (goPfx_iff imgNeedle (s.drop st)).mp (goIndex_pfx h1)
    rwa [imgNeedle_length] at this
  have hK : (s.take st ++ tagW).take (st + 10) = s.take (st + 10) := by
    have h4 : (s.take st ++ tagW).take ((s.take st).length + 10) = s.take st ++ tagW.take 10 :=
      List.take_append 10
    rw [hlen] at h4
    rw [h4, htag10, List.take_add, hs10]
  have hcongr := goPfx_drop_congr (n := imgNeedle) (j := j) hK
    (by rw [imgNeedle_length]; omega)
  rw [hcongr]
  exact goIndex_min h1 j hj

/-! ## Characters of the path-resolution chain -/

theorem splitSlash_mem : ∀ (p x : List Char), x ∈ splitSlash p → ∀ c ∈ x, c ∈ p := by
  intro p
  induction p with
  | nil =>
    intro x hx c hc
    simp only [splitSlash, List.mem_singleton] at hx
    subst hx
    cases hc
  | cons d t ih =>
    intro x hx c hc
    rw [splitSlash] at hx
    by_cases hd : d = '/'
    · rw [if_pos hd] at hx
      rcases List.mem_cons.mp hx with h | h
      · subst h; cases hc
      · exact List.mem_cons_of_mem _ (ih x h c hc)
    · rw [if_neg hd] at hx
      cases hsp : splitSlash t with
      | nil =>
        rw [hsp] at hx
        simp only [List.mem_singleton] at hx
        subst hx
        rcases List.mem_cons.mp hc with h | h
        · subst h; exact List.mem_cons_self _ _
        · cases h
      | cons s ss =>
        rw [hsp] at hx
        rcases List.mem_cons.mp hx with h | h
        · subst h
          rcases List.mem_cons.mp hc with h | h
          · subst h; exact List.mem_cons_self _ _
          · refine List.mem_cons_of_mem _ (ih s ?_ c h)
            rw [hsp]; exact List.mem_cons_self _ _
        · refine List.mem_cons_of_mem _ (ih x ?_ c hc)
          rw [hsp]; exact List.mem_cons_of_mem _ h

theorem cleanStep_mem {rooted : Bool} {acc : List (List Char)} {seg x : List Char}
    (hx : x ∈ cleanStep rooted acc seg) : x ∈ acc ∨ x = seg ∨ x = ['.', '.'] := by
  unfold cleanStep at hx
  by_cases h1 : seg = ['.']
  · rw [if_pos h1] at hx; exact Or.inl hx
  · rw [if_neg h1] at hx
    by_cases h2 : seg = ['.', '.']
    · rw [if_pos h2] at hx
      cases acc with
      | nil =>
        cases hr : rooted with
        | true => rw [hr] at hx; simp only [if_true] at hx; cases hx
        | false =>
          rw [hr] at hx
          simp only [Bool.false_eq_true, if_false, List.mem_singleton] at hx
          right; right; exact hx
      | cons t ts =>
        by_cases ht : t = ['.', '.']
        · simp only [if_pos ht, List.mem_cons] at hx
          rcases hx with h | h
          · right; left; exact h
          · rcases h with h | h
            · left; rw [h]; exact List.mem_cons_self _ _
            · exact Or.inl (List.mem_cons_of_mem _ h)
        · simp only [if_neg ht] at hx
          exact Or.inl (List.mem_cons_of_mem _ hx)
    · rw [if_neg h2] at hx
      rcases List.mem_cons.mp hx with h | h
      · right; left; exact h
      · exact Or.inl h

theorem cleanFold_mem {rooted : Bool} :
    ∀ (segs : List (List Char)) (acc : List (List Char)) (x : List Char),
      x ∈ segs.foldl (cleanStep rooted) acc → x ∈ acc ∨ x ∈ segs ∨ x = ['.', '.'] := by
  intro segs
  induction segs with
  | nil => intro acc x hx; exact Or.inl hx
  | cons seg rest ih =>
    intro acc x hx
    rw [List.foldl_cons] at hx
    rcases ih (cleanStep rooted acc seg) x hx with h | h | h
    · rcases cleanStep_mem h with h | h | h
      · exact Or.inl h
      · right; left; rw [h]; exact List.mem_cons_self _ _
      · right; right; exact h
    · right; left; exact List.mem_cons_of_mem _ h
    · right; right; exact h

theorem interSlash_mem : ∀ (l : List (List Char)) (c : Char), c ∈ interSlash l →
    (∃ x ∈ l, c ∈ x) ∨ c = '/' := by
  intro l
  induction l with
  | nil => intro c hc; cases hc
  | cons s ss ih =>
    intro c hc
    cases ss with
    | nil =>
      simp only [interSlash] at hc
      exact Or.inl ⟨s, List.mem_singleton.mpr rfl, hc⟩
    | cons s2 ss2 =>
      rw [show interSlash (s :: s2 :: ss2) = s ++ '/' :: interSlash (s2 :: ss2) from rfl] at hc
      rcases List.mem_append.mp hc with h | h
      · exact Or.inl ⟨s, List.mem_cons_self _ _, h⟩
      · rcases List.mem_cons.mp h with h | h
        · exact Or.inr h
        · rcases ih c h with ⟨x, hx, hcx⟩ | h
          · exact Or.inl ⟨x, List.mem_cons_of_mem s hx, hcx⟩
          · exact Or.inr h

theorem goClean_mem {p : List Char} {c : Char} (hc : c ∈ goClean p) :
    c ∈ p ∨ c = '/' ∨ c = '.' := by
  unfold goClean at hc
  by_cases hp : p = []
  · rw [if_pos hp] at hc
    simp only [List.mem_singleton] at hc
    right; right; exact hc
  · rw [if_neg hp] at hc
    simp only at hc
    have hout : ∀ d : Char,
        d ∈ interSlash (((splitSlash p).filter (· ≠ [])).foldl
          (cleanStep (decide (p.head? = some '/'))) []).reverse →
        d ∈ p ∨ d = '/' ∨ d = '.' := by
      intro d hd
      rcases interSlash_mem _ d hd with ⟨x, hx, hdx⟩ | h
      · rw [List.mem_reverse] at hx
        rcases cleanFold_mem _ [] x hx with h | h | h
        · cases h
        · have h2 := List.mem_of_mem_filter h
          exact Or.inl (splitSlash_mem p x h2 d hdx)
        · rw [h] at hdx
          rcases List.mem_cons.mp hdx with h3 | h3
          · right; right; exact h3
          · rcases List.mem_cons.mp h3 with h4 | h4
            · right; right; exact h4
            · cases h4
      · right; left; exact h
    by_cases hro : p.head? = some '/'
    · rw [if_pos hro] at hc
      rcases List.mem_cons.mp hc with h | h
      · right; left; exact h
      · exact hout c h
    · rw [if_neg hro] at hc
      by_cases hnil : interSlash (((splitSlash p).filter (· ≠ [])).foldl
          (cleanStep (decide (p.head? = some '/'))) []).reverse = []
      · rw [if_pos hnil] at hc
        simp only [List.mem_singleton] at hc
        right; right; exact hc
      · rw [if_neg hnil] at hc
        exact hout c hc

theorem goJoin2_mem {a b : List Char} {c : Char} (hc : c ∈ goJoin2 a b) :
    c ∈ a ∨ c ∈ b ∨ c = '/' ∨ c = '.' := by
  unfold goJoin2 at hc
  by_cases h1 : a = [] && b = []
  · rw [if_pos h1] at hc; cases hc
  · rw [if_neg h1] at hc
    by_cases h2 : a = []
    · rw [if_pos h2] at hc
      rcases goClean_mem hc with h | h
      · right; left; exact h
      · right; right; exact h
    · rw [if_neg h2] at hc
      by_cases h3 : b = []
      · rw [if_pos h3] at hc
        rcases goClean_mem hc with h | h
        · left; exact h
        · right; right; exact h
      · rw [if_neg h3] at hc
        rcases goClean_mem hc with h | h
        · rcases List.mem_append.mp h with h4 | h4
          · left; exact h4
          · rcases List.mem_cons.mp h4 with h5 | h5
            · right; right; left; exact h5
            · right; left; exact h5
        · right; right; exact h

theorem goDir_mem {p : List Char} {c : Char} (hc : c ∈ goDir p) :
    c ∈ p ∨ c = '/' ∨ c = '.' := by
  unfold goDir at hc
  cases hls : lastSlash p with
  | none =>
    rw [hls] at hc
    rcases goClean_mem hc with h | h
    · cases h
    · right; exact h
  | some k =>
    rw [hls] at hc
    rcases goClean_mem hc with h | h
    · exact Or.inl (List.mem_of_mem_take h)
    · right; exact h

theorem mdDirOf_mem {p : List Char} {c : Char} (hc : c ∈ mdDirOf p) :
    c ∈ p ∨ c = '/' ∨ c = '.' := by
  unfold mdDirOf at hc
  by_cases hd : goDir p = ['.']
  · simp only [hd, if_true] at hc; cases hc
  · simp only [hd, if_false] at hc; exact goDir_mem hc

theorem resolveRef_mem {mdDir imgPath : List Char} {c : Char}
    (hc : c ∈ resolveRef mdDir imgPath) :
    c ∈ mdDir ∨ c ∈ imgPath ∨ c = '/' ∨ c = '.' := by
  unfold resolveRef at hc
  have hdrop : ∀ x : List Char, c ∈ x.drop 1 → c ∈ x := fun x => List.mem_of_mem_drop
  have hstep : ∀ x : List Char,
      c ∈ (if goPfx "/".data (goReplAll ['\\'] ['/'] (goClean x))
        then (goReplAll ['\\'] ['/'] (goClean x)).drop 1
        else goReplAll ['\\'] ['/'] (goClean x)) →
      c ∈ x ∨ c = '/' ∨ c = '.' := by
    intro x hx
    have hx2 : c ∈ goReplAll ['\\'] ['/'] (goClean x) := by
      by_cases hpf : goPfx "/".data (goReplAll ['\\'] ['/'] (goClean x)) = true
      · rw [if_pos hpf] at hx; exact hdrop _ hx
      · rw [if_neg hpf] at hx; exact hx
    rcases goReplAllF_mem _ _ c hx2 with h | h
    · exact goClean_mem h
    · simp only [List.mem_singleton] at h
      right; left; exact h
  by_cases hb1 : (goPfx "../".data imgPath || goPfx "./".data imgPath) = true
  · rw [if_pos hb1] at hc
    rcases hstep _ hc with h | h
    · rcases goJoin2_mem h with h2 | h2 | h2 | h2
      · exact Or.inl h2
      · right; left; exact h2
      · right; right; left; exact h2
      · right; right; right; exact h2
    · right; right; exact h
  · rw [if_neg hb1] at hc
    by_cases hb2 : mdDir ≠ []
    · rw [if_pos hb2] at hc
      rcases hstep _ hc with h | h
      · rcases goJoin2_mem h with h2 | h2 | h2 | h2
        · exact Or.inl h2
        · right; left; exact h2
        · right; right; left; exact h2
        · right; right; right; exact h2
      · right; right; exact h
    · rw [if_neg hb2] at hc
      rcases hstep _ hc with h | h
      · right; left; exact h
      · right; right; exact h

/-- The rewritten src value stays free of the double quote whenever the
document's base directory and the original reference are. -/
theorem resolveRef_no_quote {mdDir imgPath : List Char}
    (h1 : '"' ∉ mdDir) (h2 : '"' ∉ imgPath) : '"' ∉ resolveRef mdDir imgPath := by
  intro hc
  rcases resolveRef_mem hc with h | h | h | h
  · exact h1 h
  · exact h2 h
  · cases h
  · cases h

/-! ## Decomposition of the scanned image tag -/

theorem goContains_of_occ {n y : List Char} (j : Nat) (h : goPfx n (y.drop j) = true) :
    goContains n y = true := by
  unfold goContains
  cases hx : goIndex n y with
  | some _ => rfl
  | none => rw [goIndex_none hx j] at h; cases h

theorem goContains_of_mid {n x : List Char} (a c : List Char) (h : goContains n x = true) :
    goContains n (a ++ (x ++ c)) = true := by
  unfold goContains at h
  cases hx : goIndex n x with
  | none => rw [hx] at h; cases h
  | some i =>
    have hp := goIndex_pfx hx
    have hb := goIndex_bound hx
    refine goContains_of_occ (a.length + i) ?_
    rw [List.drop_append, List.drop_append_of_le_length (by omega)]
    rw [goPfx_append_left c (by have := goPfx_length hp; simpa using this)]
    exact hp

/-- The tag the loop extracts, written out: the needle, the quote-free
attribute value, its closing quote, a `>`-free middle and the closing `>`. -/
theorem tag_decompose {s : List Char} {st e te : Nat}
    (h1 : goIndex imgNeedle s = some st)
    (h2 : goIndex ['"'] (s.drop (st + 10)) = some e)
    (h3 : goIndex ['>'] (s.drop (st + 10 + e)) = some te) :
    1 ≤ te ∧
    (s.drop st).take (10 + e + te + 1) =
      imgNeedle ++ (s.drop (st + 10)).take e ++
        '"' :: ((s.drop (st + 10 + e + 1)).take (te - 1) ++ ['>']) ∧
    '"' ∉ (s.drop (st + 10)).take e ∧
    '>' ∉ (s.drop (st + 10 + e + 1)).take (te - 1) := by
  have hdd : ∀ (a b c : Nat), b + a = c → (s.drop a).drop b = s.drop c := by
    intro a b c h
    rw [List.drop_drop]
    congr 1
    try omega
  have hdq : goPfx ['"'] (s.drop (st + 10 + e)) = true := by
    have h0 := goIndex_pfx h2
    rwa [hdd (st + 10) e (st + 10 + e) (by omega)] at h0
  have hchar0 : (s.drop (st + 10 + e))[0]? = some '"' := singleton_pfx_iff.mp hdq
  have hgt : goPfx ['>'] ((s.drop (st + 10 + e)).drop te) = true := goIndex_pfx h3
  have hgtchar : (s.drop (st + 10 + e))[te]? = some '>' := by
    have := singleton_pfx_iff.mp hgt
    rwa [List.getElem?_drop, Nat.add_zero] at this
  have hte1 : 1 ≤ te := by
    rcases Nat.eq_zero_or_pos te with h | h
    · rw [h] at hgtchar
      rw [hchar0] at hgtchar
      cases hgtchar
    · omega
  have hN : (s.drop st).take 10 = imgNeedle := by
    have := (goPfx_iff imgNeedle (s.drop st)).mp (goIndex_pfx h1)
    rwa [imgNeedle_length] at this
  have hB : s.drop (st + 10 + e) = '"' :: s.drop (st + 10 + e + 1) := by
    cases hBc : s.drop (st + 10 + e) with
    | nil => rw [hBc] at hchar0; cases hchar0
    | cons b bs =>
      rw [hBc] at hchar0
      simp only [List.getElem?_cons_zero, Option.some.injEq] at hchar0
      subst hchar0
      congr 1
      have htail := List.tail_drop s (st + 10 + e)
      rw [hBc] at htail
      simp only [List.tail_cons] at htail
      exact htail
  have hCgt : (s.drop (st + 10 + e + 1))[te - 1]? = some '>' := by
    rw [hB] at hgtchar
    cases te with
    | zero => omega
    | succ t0 => simpa using hgtchar
  have hdecomp : (s.drop st).take (10 + e + te + 1) =
      imgNeedle ++ (s.drop (st + 10)).take e ++
        '"' :: ((s.drop (st + 10 + e + 1)).take (te - 1) ++ ['>']) := by
    have e1 : (s.drop st).take (10 + e + te + 1) =
        (s.drop st).take 10 ++ ((s.drop st).drop 10).take (e + te + 1) := by
      rw [← List.take_add]
      congr 1
      try omega
    have e2 : (s.drop (st + 10)).take (e + te + 1) =
        (s.drop (st + 10)).take e ++ ((s.drop (st + 10)).drop e).take (te + 1) := by
      rw [← List.take_add]
      congr 1
      try omega
    have hinner : (s.drop (st + 10 + e)).take (te + 1) =
        '"' :: ((s.drop (st + 10 + e + 1)).take (te - 1) ++ ['>']) := by
      rw [hB, List.take_succ_cons]
      have e3 : te = (te - 1) + 1 := by omega
      conv_lhs => rw [e3]
      rw [List.take_succ, hCgt]
      simp
    rw [e1, hN, hdd st 10 (st + 10) (by omega), e2,
      hdd (st + 10) e (st + 10 + e) (by omega), hinner, List.append_assoc]
  refine ⟨hte1, hdecomp, singleton_no_mem_take h2, ?_⟩
  intro hmem
  obtain ⟨j, hj⟩ := List.mem_iff_getElem?.mp hmem
  rw [List.getElem?_take] at hj
  by_cases hjt : j < te - 1
  · rw [if_pos hjt] at hj
    have hocc : goPfx ['>'] ((s.drop (st + 10 + e)).drop (j + 1)) = true := by
      rw [singleton_pfx_iff, List.getElem?_drop, hB]
      simpa using hj
    rw [goIndex_min h3 (j + 1) (by omega)] at hocc
    cases hocc
  · rw [if_neg hjt] at hj; cases hj

/-! ## The rewritten tag's shape -/

theorem imgNeedle_split : imgNeedle = "<img ".data ++ "src=\"".data := by decide

theorem srcAttr_length (v : List Char) : (srcAttr v).length = v.length + 6 := by
  simp [srcAttr]
  try omega

theorem srcAttr_index (P R : List Char) :
    goIndex (srcAttr P) (imgNeedle ++ P ++ '"' :: R) = some 5 := by
  refine goIndex_of ?_ ?_
  · have hdrop : (imgNeedle ++ P ++ '"' :: R).drop 5 = "src=\"".data ++ (P ++ '"' :: R) := by
      rw [List.append_assoc, imgNeedle_split, List.append_assoc]
      rw [show (5:Nat) = ("<img ".data : List Char).length from rfl, List.drop_left]
    rw [hdrop]
    unfold srcAttr
    rw [List.append_assoc, goPfx_append_same]
    have hshape : P ++ '"' :: R = P ++ (['"'] ++ R) := rfl
    rw [hshape, goPfx_append_same]
    simp [goPfx]
  · intro j hj
    rw [← Bool.not_eq_true]
    intro hp
    have hlen0 : 0 < (srcAttr P).length := by rw [srcAttr_length]; omega
    have h0 := goPfx_getElem hp 0 hlen0
    have hsrc0 : (srcAttr P)[0]? = some 's' := rfl
    rw [hsrc0, List.getElem?_drop, Nat.add_zero] at h0
    rw [List.append_assoc, List.getElem?_append, if_pos (by rw [imgNeedle_length]; omega)] at h0
    have hno : ∀ i < 5, ¬ imgNeedle[i]? = some 's' := by decide
    exact hno j hj h0

theorem goRepl1_tag (P R nw : List Char) :
    goRepl1 (imgNeedle ++ P ++ '"' :: R) (srcAttr P) nw = "<img ".data ++ nw ++ R := by
  unfold goRepl1
  rw [srcAttr_index P R]
  show (imgNeedle ++ P ++ '"' :: R).take 5 ++ nw ++
      (imgNeedle ++ P ++ '"' :: R).drop (5 + (srcAttr P).length) =
    "<img ".data ++ nw ++ R
  have htake : (imgNeedle ++ P ++ '"' :: R).take 5 = "<img ".data := by
    rw [List.append_assoc, List.take_append_of_le_length (by rw [imgNeedle_length]; omega)]
    decide
  have hdrop : (imgNeedle ++ P ++ '"' :: R).drop (5 + (srcAttr P).length) = R := by
    have hsh : imgNeedle ++ P ++ '"' :: R = (imgNeedle ++ P ++ ['"']) ++ R := by simp
    rw [hsh, show 5 + (srcAttr P).length = (imgNeedle ++ P ++ ['"']).length by
      rw [srcAttr_length]; simp [imgNeedle_length]; omega]
    rw [List.drop_left]
  rw [htake, hdrop]

/-! ## The loop's output is Settled -/

theorem insStr_no_gt : '>' ∉ insStr := by decide

theorem insStr_marker : goContains markerStr insStr = true := by decide

/-- The rewrite counter stays at or below the ceiling, and whenever the loop
finishes below it, its output is a Settled string: every tag of the output
either carries the marker or is part of a verbatim malformed tail.  The base
directory must be free of `"` (a quote inside it would be spliced into the
src attribute and change how a later scan parses the tag). -/
theorem fixLoopF_settled {mdDir : List Char} (hqd : '"' ∉ mdDir) :
    ∀ fuel content n, n ≤ 1000 →
      (fixLoopF fuel mdDir content [] n).2 ≤ 1000 ∧
      ((fixLoopF fuel mdDir content [] n).2 < 1000 →
        Settled (fixLoopF fuel mdDir content [] n).1) := by
  intro fuel
  induction fuel with
  | zero =>
    intro content n hn
    refine ⟨hn, fun _ => ?_⟩
    exact Settled.noTag [] (by decide)
  | succ f ih =>
    intro content n hn
    by_cases hn1000 : n < 1000
    · cases h1 : goIndex imgNeedle content with
      | none =>
        rw [fixLoopF_none f mdDir content [] hn1000 h1]
        exact ⟨hn, fun _ => by simpa using Settled.noTag content h1⟩
      | some st =>
        cases h2 : goIndex ['"'] (content.drop (st + 10)) with
        | none =>
          rw [fixLoopF_noquote f mdDir content [] hn1000 h1 h2]
          refine ⟨hn, fun _ => ?_⟩
          have hres : (([] : List Char) ++ content.take st) ++ content.drop st = content := by
            simp [List.take_append_drop]
          rw [hres]
          exact Settled.noQuote content st h1 h2
        | some e =>
          cases h3 : goIndex ['>'] (content.drop (st + 10 + e)) with
          | none =>
            rw [fixLoopF_nogt f mdDir content [] hn1000 h1 h2 h3]
            refine ⟨hn, fun _ => ?_⟩
            have hres : (([] : List Char) ++ content.take st) ++ content.drop st = content := by
              simp [List.take_append_drop]
            rw [hres]
            exact Settled.noGt content st e h1 h2 h3
          | some te =>
            obtain ⟨hte1, hdecomp, hqP, hgM⟩ := tag_decompose h1 h2 h3
            have hdecomp2 : (content.drop st).take (10 + e + te + 1) =
                imgNeedle ++ (content.drop (st + 10)).take e ++
                  '"' :: (content.drop (st + 10 + e + 1)).take (te - 1) ++ ['>'] := by
              rw [hdecomp]
              simp [List.cons_append, List.append_assoc]
            cases hm : goContains markerStr ((content.drop st).take (10 + e + te + 1)) with
            | true =>
              rw [fixLoopF_marker f mdDir content [] hn1000 h1 h2 h3 hm,
                fixLoopF_acc f mdDir]
              obtain ⟨hW2, hWS⟩ := ih (content.drop (st + 10 + e + te + 1)) n hn
              refine ⟨hW2, fun hlt => ?_⟩
              have hset := hWS hlt
              rw [List.nil_append, List.append_assoc]
              refine settled_prepend ?_ ?_
              · refine prefix_piece_no_occ h1 ?_
                rw [hdecomp]
                have hsh : (imgNeedle ++ (content.drop (st + 10)).take e ++
                    '"' :: ((content.drop (st + 10 + e + 1)).take (te - 1) ++ ['>'])) ++
                    (fixLoopF f mdDir (content.drop (st + 10 + e + te + 1)) [] n).1 =
                    imgNeedle ++ (((content.drop (st + 10)).take e ++
                      '"' :: ((content.drop (st + 10 + e + 1)).take (te - 1) ++ ['>'])) ++
                      (fixLoopF f mdDir (content.drop (st + 10 + e + te + 1)) [] n).1) := by
                  simp [List.append_assoc]
                rw [hsh]
                exact goPfx_refl_append _ _
              · rw [hdecomp2]
                have hm2 : goContains markerStr
                    (imgNeedle ++ (content.drop (st + 10)).take e ++
                      '"' :: (content.drop (st + 10 + e + 1)).take (te - 1) ++ ['>']) = true := by
                  rw [← hdecomp2]; exact hm
                exact settled_tag hqP hgM hm2 hset
            | false =>
              cases hr : relRef ((content.drop (st + 10)).take e) with
              | true =>
                rw [fixLoopF_rel f mdDir content [] hn1000 h1 h2 h3 hm hr,
                  fixLoopF_acc f mdDir]
                obtain ⟨hW2, hWS⟩ := ih (content.drop (st + 10 + e + te + 1)) (n + 1)
                  (by omega)
                refine ⟨hW2, fun hlt => ?_⟩
                have hset := hWS hlt
                have hqF : '"' ∉ resolveRef mdDir ((content.drop (st + 10)).take e) :=
                  resolveRef_no_quote hqd hqP
                have hrepl : goRepl1 ((content.drop st).take (10 + e + te + 1))
                    (srcAttr ((content.drop (st + 10)).take e))
                    (srcAttr (resolveRef mdDir ((content.drop (st + 10)).take e)) ++ insStr) =
                    imgNeedle ++ resolveRef mdDir ((content.drop (st + 10)).take e) ++
                      '"' :: (insStr ++ (content.drop (st + 10 + e + 1)).take (te - 1)) ++
                      ['>'] := by
                  rw [hdecomp, goRepl1_tag]
                  simp [srcAttr, imgNeedle_split, List.append_assoc]
                rw [List.nil_append, hrepl]
                have hassoc : ((content.take st ++
                    (imgNeedle ++ resolveRef mdDir ((content.drop (st + 10)).take e) ++
                      '"' :: (insStr ++ (content.drop (st + 10 + e + 1)).take (te - 1)) ++
                      ['>'])) ++
                    (fixLoopF f mdDir (content.drop (st + 10 + e + te + 1)) [] (n + 1)).1) =
                    content.take st ++
                    ((imgNeedle ++ resolveRef mdDir ((content.drop (st + 10)).take e) ++
                      '"' :: (insStr ++ (content.drop (st + 10 + e + 1)).take (te - 1)) ++
                      ['>']) ++
                    (fixLoopF f mdDir (content.drop (st + 10 + e + te + 1)) [] (n + 1)).1) := by
                  rw [List.append_assoc]
                rw [hassoc]
                refine settled_prepend ?_ ?_
                · refine prefix_piece_no_occ h1 ?_
                  have hsh : (imgNeedle ++ resolveRef mdDir ((content.drop (st + 10)).take e) ++
                      '"' :: (insStr ++ (content.drop (st + 10 + e + 1)).take (te - 1)) ++
                      ['>']) ++
                      (fixLoopF f mdDir (content.drop (st + 10 + e + te + 1)) [] (n + 1)).1 =
                      imgNeedle ++ ((resolveRef mdDir ((content.drop (st + 10)).take e) ++
                        '"' :: (insStr ++ (content.drop (st + 10 + e + 1)).take (te - 1)) ++
                        ['>']) ++
                      (fixLoopF f mdDir (content.drop (st + 10 + e + te + 1)) [] (n + 1)).1) := by
                    simp [List.append_assoc]
                  rw [hsh]
                  exact goPfx_refl_append _ _
                · have hg2 : '>' ∉ insStr ++ (content.drop (st + 10 + e + 1)).take (te - 1) := by
                    intro hmem
                    rcases List.mem_append.mp hmem with h | h
                    · exact insStr_no_gt h
                    · exact hgM h
                  have hmark2 : goContains markerStr
                      (imgNeedle ++ resolveRef mdDir ((content.drop (st + 10)).take e) ++
                        '"' :: (insStr ++ (content.drop (st + 10 + e + 1)).take (te - 1)) ++
                        ['>']) = true := by
                    have heq : (imgNeedle ++ resolveRef mdDir ((content.drop (st + 10)).take e) ++
                        ['"']) ++
                        (insStr ++ ((content.drop (st + 10 + e + 1)).take (te - 1) ++ ['>'])) =
                        imgNeedle ++ resolveRef mdDir ((content.drop (st + 10)).take e) ++
                          '"' :: (insStr ++ (content.drop (st + 10 + e + 1)).take (te - 1)) ++
                          ['>'] := by
                      simp [List.append_assoc]
                    rw [← heq]
                    exact goContains_of_mid _ _ insStr_marker
                  exact settled_tag hqF hg2 hmark2 hset
              | false =>
                rw [fixLoopF_abs f mdDir content [] hn1000 h1 h2 h3 hm hr,
                  fixLoopF_acc f mdDir]
                obtain ⟨hW2, hWS⟩ := ih (content.drop (st + 10 + e + te + 1)) (n + 1)
                  (by omega)
                refine ⟨hW2, fun hlt => ?_⟩
                have hset := hWS hlt
                have hsplit : (content.drop st).take (10 + e + te + 1) =
                    (imgNeedle ++ (content.drop (st + 10)).take e ++
                      '"' :: (content.drop (st + 10 + e + 1)).take (te - 1)) ++ ['>'] := by
                  rw [hdecomp2]
                  try simp [List.append_assoc]
                have hlen : ((content.drop st).take (10 + e + te + 1)).length - 1 =
                    (imgNeedle ++ (content.drop (st + 10)).take e ++
                      '"' :: (content.drop (st + 10 + e + 1)).take (te - 1)).length := by
                  rw [hsplit]
                  simp only [List.length_append, List.length_cons, List.length_nil]
                  omega
                have htk : ((content.drop st).take (10 + e + te + 1)).take
                    (((content.drop st).take (10 + e + te + 1)).length - 1) =
                    imgNeedle ++ (content.drop (st + 10)).take e ++
                      '"' :: (content.drop (st + 10 + e + 1)).take (te - 1) := by
                  rw [hlen, hsplit, List.take_left]
                rw [List.nil_append, htk]
                have hshape : (content.take st ++
                    ((imgNeedle ++ (content.drop (st + 10)).take e ++
                      '"' :: (content.drop (st + 10 + e + 1)).take (te - 1)) ++ insStrG)) ++
                    (fixLoopF f mdDir (content.drop (st + 10 + e + te + 1)) [] (n + 1)).1 =
                    content.take st ++
                    ((imgNeedle ++ (content.drop (st + 10)).take e ++
                      '"' :: ((content.drop (st + 10 + e + 1)).take (te - 1) ++ insStr) ++
                      ['>']) ++
                    (fixLoopF f mdDir (content.drop (st + 10 + e + te + 1)) [] (n + 1)).1) := by
                  simp [insStrG, List.append_assoc]
                rw [hshape]
                refine settled_prepend ?_ ?_
                · refine prefix_piece_no_occ h1 ?_
                  have hsh : (imgNeedle ++ (content.drop (st + 10)).take e ++
                      '"' :: ((content.drop (st + 10 + e + 1)).take (te - 1) ++ insStr) ++
                      ['>']) ++
                      (fixLoopF f mdDir (content.drop (st + 10 + e + te + 1)) [] (n + 1)).1 =
                      imgNeedle ++ (((content.drop (st + 10)).take e ++
                        '"' :: ((content.drop (st + 10 + e + 1)).take (te - 1) ++ insStr) ++
                        ['>']) ++
                      (fixLoopF f mdDir (content.drop (st + 10 + e + te + 1)) [] (n + 1)).1) := by
                    simp [List.append_assoc]
                  rw [hsh]
                  exact goPfx_refl_append _ _
                · have hg2 : '>' ∉ (content.drop (st + 10 + e + 1)).take (te - 1) ++ insStr := by
                    intro hmem
                    rcases List.mem_append.mp hmem with h | h
                    · exact hgM h
                    · exact insStr_no_gt h
                  have hmark2 : goContains markerStr
                      (imgNeedle ++ (content.drop (st + 10)).take e ++
                        '"' :: ((content.drop (st + 10 + e + 1)).take (te - 1) ++ insStr) ++
                        ['>']) = true := by
                    have heq : (imgNeedle ++ (content.drop (st + 10)).take e ++
                        '"' :: (content.drop (st + 10 + e + 1)).take (te - 1)) ++
                        (insStr ++ ['>']) =
                        imgNeedle ++ (content.drop (st + 10)).take e ++
                          '"' :: ((content.drop (st + 10 + e + 1)).take (te - 1) ++ insStr) ++
                          ['>'] := by
                      simp [List.append_assoc]
                    rw [← heq]
                    exact goContains_of_mid _ _ insStr_marker
                  exact settled_tag hqP hg2 hmark2 hset
    · rw [fixLoopF_ceiling f mdDir content [] hn1000]
      exact ⟨hn, fun hlt => absurd hlt hn1000⟩

theorem fixImagePaths_eq (html p : List Char) :
    fixImagePaths html p =
      if (fixLoopF (html.length + 1) (mdDirOf p) html [] 0).2 ≥ 1000 then html
      else (fixLoopF (html.length + 1) (mdDirOf p) html [] 0).1 := rfl

theorem mdDirOf_no_quote {p : List Char} (hq : '"' ∉ p) : '"' ∉ mdDirOf p := by
  intro hc
  rcases mdDirOf_mem hc with h | h | h
  · exact hq h
  · cases h
  · cases h

/-! ## Facts about the Mermaid rewrite loop -/

theorem decodeEnt_length (b : List Char) : (decodeEnt b).length ≤ b.length := by
  unfold decodeEnt
  have h1 : (goReplAll "&lt;".data "<".data b).length ≤ b.length :=
    goReplAllF_length (by decide) b.length b
  have h2 : (goReplAll "&gt;".data ">".data (goReplAll "&lt;".data "<".data b)).length ≤
      (goReplAll "&lt;".data "<".data b).length :=
    goReplAllF_length (by decide) _ _
  have h3 : (goReplAll "&amp;".data "&".data (goReplAll "&gt;".data ">".data
      (goReplAll "&lt;".data "<".data b))).length ≤
      (goReplAll "&gt;".data ">".data (goReplAll "&lt;".data "<".data b)).length :=
    goReplAllF_length (by decide) _ _
  have h4 := goTrim_length (goReplAll "&amp;".data "&".data (goReplAll "&gt;".data ">".data
    (goReplAll "&lt;".data "<".data b)))
  omega

/-- Inside either opener no `</code></pre>` can begin: the first
occurrence of the closer is at least 27 characters after the opener. -/
theorem mermEnd_bound {x : List Char} {e : Nat} {op : List Char}
    (hlen : 27 ≤ op.length)
    (hno : ∀ i < 27, op[i]? = some '<' → i + 1 < 27 ∧ ¬ op[i + 1]? = some '/')
    (hop : goPfx op x = true)
    (he : goIndex mermEnd x = some e) : 27 ≤ e := by
  by_contra hlt
  push_neg at hlt
  have hp := goIndex_pfx he
  have hc0 : x[e]? = some '<' := by
    have := goPfx_getElem hp 0 (by decide : (0:Nat) < mermEnd.length)
    rw [List.getElem?_drop, Nat.add_zero] at this
    rw [this]; rfl
  have hc1 : x[e + 1]? = some '/' := by
    have := goPfx_getElem hp 1 (by decide : (1:Nat) < mermEnd.length)
    rw [List.getElem?_drop] at this
    rw [this]; rfl
  have hx0 : x[e]? = op[e]? := (goPfx_getElem hop e (by omega)).symm ▸ rfl
  have hx0' : op[e]? = some '<' := by
    rw [← goPfx_getElem hop e (by omega)]
    exact hc0
  obtain ⟨hlt1, hne⟩ := hno e hlt hx0'
  apply hne
  rw [← goPfx_getElem hop (e + 1) (by omega)]
  exact hc1

theorem mermLong_no_early_close :
    ∀ i < 27, mermLong[i]? = some '<' → i + 1 < 27 ∧ ¬ mermLong[i + 1]? = some '/' := by
  decide

theorem mermShort_no_early_close :
    ∀ i < 27, mermShort[i]? = some '<' → i + 1 < 27 ∧ ¬ mermShort[i + 1]? = some '/' := by
  decide

/-- Each loop iteration strictly shortens the string: the wrapper plus the
decoded, trimmed body is shorter than the opener, body and closer it
replaces. -/
theorem mermaidStep_length {c c1 : List Char} (h : mermaidStep c = some c1) :
    c1.length < c.length := by
  unfold mermaidStep at h
  simp only at h
  have main : ∀ st e : Nat, goPfx mermLong (c.drop st) = true ∨ goPfx mermShort (c.drop st) = true →
      st ≤ c.length →
      goIndex mermEnd (c.drop st) = some e →
      c1 = c.take st ++ divOpen ++
        decodeEnt ((c.take (st + e + mermEnd.length - mermEnd.length)).drop
          (if goContains classMerm ((c.drop st).take 36) then st + 27 else st + 36)) ++
        divClose ++ c.drop (st + e + mermEnd.length) →
      c1.length < c.length := by
    intro st e hop hst he hc1
    have he27 : 27 ≤ e := by
      rcases hop with hop | hop
      · exact mermEnd_bound (by decide) mermLong_no_early_close hop he
      · exact mermEnd_bound (by decide) mermShort_no_early_close hop he
    have hebound := goIndex_bound he
    rw [List.length_drop] at hebound
    have hmE : mermEnd.length = 13 := by decide
    rw [hmE] at hc1 hebound
    subst hc1
    have hcs : st + 27 ≤ (if goContains classMerm ((c.drop st).take 36) then st + 27 else st + 36) := by
      by_cases hx : goContains classMerm ((c.drop st).take 36) = true
      · rw [if_pos hx]
      · rw [if_neg hx]; omega
    set cs := if goContains classMerm ((c.drop st).take 36) then st + 27 else st + 36 with hcsdef
    have hd := decodeEnt_length ((c.take (st + e + 13 - 13)).drop cs)
    simp only [List.length_append, List.length_take, List.length_drop] at *
    have hdO : divOpen.length = 21 := by decide
    have hdC : divClose.length = 6 := by decide
    rw [hdO, hdC]
    omega
  cases hL : goIndex mermLong c with
  | some st =>
    rw [hL] at h
    simp only at h
    cases hE : goIndex mermEnd (c.drop st) with
    | none => rw [hE] at h; cases h
    | some e =>
      rw [hE] at h
      simp only [Option.some.injEq] at h
      refine main st e (Or.inl (goIndex_pfx hL)) ?_ hE h.symm
      have := goIndex_bound hL
      omega
  | none =>
    rw [hL] at h
    simp only at h
    cases hS : goIndex mermShort c with
    | none => rw [hS] at h; cases h
    | some st =>
      rw [hS] at h
      simp only at h
      cases hE : goIndex mermEnd (c.drop st) with
      | none => rw [hE] at h; cases h
      | some e =>
        rw [hE] at h
        simp only [Option.some.injEq] at h
        refine main st e (Or.inr (goIndex_pfx hS)) ?_ hE h.symm
        have := goIndex_bound hS
        omega

theorem processMermaidF_succ (f : Nat) (c : List Char) :
    processMermaidF (f + 1) c =
      match mermaidStep c with
      | none => c
      | some c1 => processMermaidF f c1 := rfl

/-- The fuel is only a termination device: any two sufficient fuels agree. -/
theorem processMermaidF_fuel :
    ∀ f1 f2 c, c.length < f1 → c.length < f2 → processMermaidF f1 c = processMermaidF f2 c := by
  intro f1
  induction f1 with
  | zero => intro f2 c h1 _; omega
  | succ g ih =>
    intro f2 c h1 h2
    cases f2 with
    | zero => omega
    | succ g2 =>
      rw [processMermaidF_succ, processMermaidF_succ]
      cases hstep : mermaidStep c with
      | none => rfl
      | some c1 =>
        have hdec := mermaidStep_length hstep
        exact ih g2 c1 (by omega) (by omega)

theorem mermaidStep_none {x : List Char} (hL : goIndex mermLong x = none)
    (hS : goIndex mermShort x = none) : mermaidStep x = none := by
  unfold mermaidStep
  rw [hL, hS]

theorem processMermaidF_fix {x : List Char} (hx : mermaidStep x = none) :
    ∀ f, processMermaidF f x = x := by
  intro f
  cases f with
  | zero => rfl
  | succ g => rw [processMermaidF_succ, hx]

/-! ## One well-delimited diagram block -/

/-- The wrapper spliced in for a block whose raw body is `body`. -/
def mermWrap (body : List Char) : List Char := divOpen ++ decodeEnt body ++ divClose

theorem mermLong_no_early36 :
    ∀ i < 36, mermLong[i]? = some '<' → i + 1 < 36 ∧ ¬ mermLong[i + 1]? = some '/' := by
  decide

theorem mermEnd_no_occ {x op : List Char} {bound : Nat}
    (hno : ∀ i < bound, op[i]? = some '<' → i + 1 < bound ∧ ¬ op[i + 1]? = some '/')
    (hblen : bound ≤ op.length)
    (hop : goPfx op x = true) :
    ∀ j < bound, goPfx mermEnd (x.drop j) = false := by
  intro j hj
  by_contra hocc
  rw [Bool.not_eq_false] at hocc
  have hc0 : x[j]? = some '<' := by
    have := goPfx_getElem hocc 0 (by decide : (0:Nat) < mermEnd.length)
    rw [List.getElem?_drop, Nat.add_zero] at this
    rw [this]; rfl
  have hop0 : op[j]? = some '<' := by
    rw [← goPfx_getElem hop j (by omega)]
    exact hc0
  obtain ⟨hlt1, hne⟩ := hno j hj hop0
  apply hne
  rw [← goPfx_getElem hop (j + 1) (by omega)]
  have := goPfx_getElem hocc 1 (by decide : (1:Nat) < mermEnd.length)
  rw [List.getElem?_drop] at this
  rw [this]; rfl

theorem classMerm_not_in_long : goContains classMerm mermLong = false := by decide

theorem classMerm_in_short_take (R : List Char) :
    goContains classMerm ((mermShort ++ R).take 36) = true := by
  have htk : (mermShort ++ R).take 36 = mermShort ++ R.take 9 := by
    rw [show (36:Nat) = mermShort.length + 9 from by decide]
    exact List.take_append 9
  rw [htk]
  refine goContains_of_occ 11 ?_
  rw [List.drop_append_of_le_length (by decide)]
  rw [goPfx_append_left _ (by decide)]
  decide

/-- The step on a document that is exactly one long-form block: the block
body is extracted, decoded, trimmed and wrapped. -/
theorem mermaidStep_single_long {body : List Char}
    (hend : goIndex mermEnd (body ++ mermEnd) = some body.length) :
    mermaidStep (mermLong ++ body ++ mermEnd) = some (mermWrap body) := by
  have h1 : goIndex mermLong (mermLong ++ body ++ mermEnd) = some 0 :=
    goIndex_zero (goPfx_refl_append _ _)
  have h2 : goIndex mermEnd (mermLong ++ body ++ mermEnd) = some (36 + body.length) := by
    have := goIndex_append_right (n := mermEnd) (a := mermLong) (b := body ++ mermEnd)
      (mermEnd_no_occ mermLong_no_early36 (by decide) (goPfx_refl_append _ _)) hend
    rwa [show mermLong.length = 36 from by decide] at this
  have htk36 : (mermLong ++ body ++ mermEnd).take 36 = mermLong := by
    have := (goPfx_iff mermLong (mermLong ++ body ++ mermEnd)).mp (goPfx_refl_append _ _)
    rwa [show mermLong.length = 36 from by decide] at this
  unfold mermaidStep
  rw [h1]
  simp only [List.drop_zero]
  rw [h2]
  simp only [List.drop_zero, List.take_zero, htk36, classMerm_not_in_long,
    Bool.false_eq_true, if_false, Option.some.injEq]
  have hassoc : (mermLong ++ body) ++ mermEnd = mermLong ++ (body ++ mermEnd) :=
    List.append_assoc _ _ _
  have hbody : ((mermLong ++ body ++ mermEnd).take (0 + (36 + body.length) +
      mermEnd.length - mermEnd.length)).drop (0 + 36) = body := by
    rw [show (0 + (36 + body.length) + mermEnd.length - mermEnd.length) =
      mermLong.length + body.length from by
        rw [show mermEnd.length = 13 from by decide, show mermLong.length = 36 from by decide]
        omega]
    rw [hassoc, List.take_append body.length, List.take_left]
    rw [show (0 + 36 : Nat) = mermLong.length from by decide]
    rw [List.drop_left]
  have hdropEnd : (mermLong ++ body ++ mermEnd).drop (0 + (36 + body.length) +
      mermEnd.length) = [] := by
    apply List.drop_eq_nil_of_le
    simp only [List.length_append, show mermLong.length = 36 from by decide,
      show mermEnd.length = 13 from by decide]
    omega
  rw [hbody, hdropEnd]
  simp [mermWrap]

/-- The same for the short form, provided the document holds no long-form
opener (the source searches for the long form first). -/
theorem mermaidStep_single_short {body : List Char}
    (hnoLong : goIndex mermLong (mermShort ++ body ++ mermEnd) = none)
    (hend : goIndex mermEnd (body ++ mermEnd) = some body.length) :
    mermaidStep (mermShort ++ body ++ mermEnd) = some (mermWrap body) := by
  have h1 : goIndex mermShort (mermShort ++ body ++ mermEnd) = some 0 :=
    goIndex_zero (goPfx_refl_append _ _)
  have h2 : goIndex mermEnd (mermShort ++ body ++ mermEnd) = some (27 + body.length) := by
    have := goIndex_append_right (n := mermEnd) (a := mermShort) (b := body ++ mermEnd)
      (mermEnd_no_occ mermShort_no_early_close (by decide) (goPfx_refl_append _ _)) hend
    rwa [show mermShort.length = 27 from by decide] at this
  unfold mermaidStep
  rw [hnoLong]
  simp only
  rw [h1]
  simp only [List.drop_zero]
  rw [h2]
  simp only [List.drop_zero, List.take_zero, List.append_assoc,
    classMerm_in_short_take, if_true, Option.some.injEq]
  have hbody : ((mermShort ++ (body ++ mermEnd)).take (0 + (27 + body.length) +
      mermEnd.length - mermEnd.length)).drop (0 + 27) = body := by
    rw [show (0 + (27 + body.length) + mermEnd.length - mermEnd.length) =
      mermShort.length + body.length from by
        rw [show mermEnd.length = 13 from by decide, show mermShort.length = 27 from by decide]
        omega]
    rw [List.take_append body.length, List.take_left]
    rw [show (0 + 27 : Nat) = mermShort.length from by decide]
    rw [List.drop_left]
  have hdropEnd : (mermShort ++ (body ++ mermEnd)).drop (0 + (27 + body.length) +
      mermEnd.length) = [] := by
    apply List.drop_eq_nil_of_le
    simp only [List.length_append, show mermShort.length = 27 from by decide,
      show mermEnd.length = 13 from by decide]
    omega
  rw [hbody, hdropEnd]
  simp [mermWrap]

/-- The rewrite counter of the image loop never passes the ceiling. -/
theorem fixLoopF_counter :
    ∀ fuel mdDir content acc n, (fixLoopF fuel mdDir content acc n).2 ≤ max n 1000 := by
  intro fuel
  induction fuel with
  | zero => intro mdDir content acc n; exact Nat.le_max_left _ _
  | succ f ih =>
    intro mdDir content acc n
    by_cases hn : n < 1000
    · cases h1 : goIndex imgNeedle content with
      | none => rw [fixLoopF_none f mdDir content acc hn h1]; exact Nat.le_max_left _ _
      | some st =>
        cases h2 : goIndex ['"'] (content.drop (st + 10)) with
        | none =>
          rw [fixLoopF_noquote f mdDir content acc hn h1 h2]
          exact Nat.le_max_left _ _
        | some e =>
          cases h3 : goIndex ['>'] (content.drop (st + 10 + e)) with
          | none =>
            rw [fixLoopF_nogt f mdDir content acc hn h1 h2 h3]
            exact Nat.le_max_left _ _
          | some te =>
            cases hm : goContains markerStr ((content.drop st).take (10 + e + te + 1)) with
            | true =>
              rw [fixLoopF_marker f mdDir content acc hn h1 h2 h3 hm]
              exact ih _ _ _ _
            | false =>
              cases hr : relRef ((content.drop (st + 10)).take e) with
              | true =>
                rw [fixLoopF_rel f mdDir content acc hn h1 h2 h3 hm hr]
                have := ih mdDir (content.drop (st + 10 + e + te + 1))
                  ((acc ++ content.take st) ++
                    goRepl1 ((content.drop st).take (10 + e + te + 1))
                      (srcAttr ((content.drop (st + 10)).take e))
                      (srcAttr (resolveRef mdDir ((content.drop (st + 10)).take e)) ++ insStr))
                  (n + 1)
                have hmax : max (n + 1) 1000 = 1000 := by omega
                rw [hmax] at this
                exact this.trans (Nat.le_max_right _ _)
              | false =>
                rw [fixLoopF_abs f mdDir content acc hn h1 h2 h3 hm hr]
                have := ih mdDir (content.drop (st + 10 + e + te + 1))
                  ((acc ++ content.take st) ++
                    (((content.drop st).take (10 + e + te + 1)).take
                      (((content.drop st).take (10 + e + te + 1)).length - 1) ++ insStrG))
                  (n + 1)
                have hmax : max (n + 1) 1000 = 1000 := by omega
                rw [hmax] at this
                exact this.trans (Nat.le_max_right _ _)
    · rw [fixLoopF_ceiling f mdDir content acc hn]
      exact Nat.le_max_left _ _

theorem lookupKV_mapIns (m : List (List Char × List Char)) (k v p : List Char) :
    lookupKV (mapIns k v m) p = if p = k then some v else lookupKV m p := by
  induction m with
  | nil =>
    by_cases h : p = k
    · subst h; simp [mapIns, lookupKV]
    · have h2 : ¬ k = p := fun hh => h hh.symm
      simp [mapIns, lookupKV, h, h2]
  | cons hd t ih =>
    obtain ⟨a, b⟩ := hd
    by_cases h1 : a = k
    · subst h1
      by_cases h2 : a = p
      · subst h2; simp [mapIns, lookupKV]
      · have h2a : ¬ p = a := fun hh => h2 hh.symm
        simp [mapIns, lookupKV, h2, h2a]
    · by_cases h2 : a = p
      · subst h2
        simp [mapIns, lookupKV, h1]
      · simp [mapIns, lookupKV, h1, h2, ih]

theorem countKey_mapIns (m : List (List Char × List Char)) (k v p : List Char) :
    countKey (mapIns k v m) p = if p = k then max 1 (countKey m p) else countKey m p := by
  induction m with
  | nil =>
    by_cases h : p = k
    · subst h; simp [mapIns, countKey]
    · have h2 : ¬ k = p := fun hh => h hh.symm
      simp [mapIns, countKey, h, h2]
  | cons hd t ih =>
    obtain ⟨a, b⟩ := hd
    by_cases h1 : a = k
    · subst h1
      by_cases h2 : p = a
      · subst h2; simp [mapIns, countKey]; try omega
      · have h2a : ¬ a = p := fun hh => h2 hh.symm
        simp [mapIns, countKey, h2, h2a]
    · by_cases h2 : p = k
      · subst h2
        have h1a : ¬ a = p := fun hh => h1 hh
        simp [mapIns, countKey, h1, h1a, ih]
      · by_cases h3 : a = p
        · subst h3
          simp [mapIns, countKey, h1, h2, ih]
        · simp [mapIns, countKey, h1, h2, h3, ih]

theorem lookupKV_buildFold (readF convert : List Char → Except (List Char) (List Char)) :
    ∀ (files : List (List Char)) (m : List (List Char × List Char)) (p : List Char),
      lookupKV (files.foldl (fun m q => mapIns q (renderedValue readF convert q) m) m) p =
        if p ∈ files then some (renderedValue readF convert p) else lookupKV m p := by
  intro files
  induction files with
  | nil => intro m p; simp
  | cons q t ih =>
    intro m p
    simp only [List.foldl_cons]
    rw [ih]
    by_cases hp : p ∈ t
    · rw [if_pos hp, if_pos (List.mem_cons_of_mem q hp)]
    · rw [if_neg hp, lookupKV_mapIns]
      by_cases hq : p = q
      · subst hq; rw [if_pos rfl, if_pos (List.mem_cons_self p t)]
      · rw [if_neg hq, if_neg (by simp [List.mem_cons, hq, hp])]

theorem countKey_buildFold (readF convert : List Char → Except (List Char) (List Char)) :
    ∀ (files : List (List Char)) (m : List (List Char × List Char)) (p : List Char),
      countKey (files.foldl (fun m q => mapIns q (renderedValue readF convert q) m) m) p =
        if p ∈ files then max 1 (countKey m p) else countKey m p := by
  intro files
  induction files with
  | nil => intro m p; simp
  | cons q t ih =>
    intro m p
    simp only [List.foldl_cons]
    rw [ih]
    by_cases hp : p ∈ t
    · rw [if_pos hp, if_pos (List.mem_cons_of_mem q hp), countKey_mapIns]
      by_cases hq : p = q
      · rw [if_pos hq]; omega
      · rw [if_neg hq]
    · rw [if_neg hp, countKey_mapIns]
      by_cases hq : p = q
      · subst hq; rw [if_pos rfl, if_pos (List.mem_cons_self p t)]
      · rw [if_neg hq, if_neg (by simp [List.mem_cons, hq, hp])]

theorem betweenLock_writes (k : Nat) :
    betweenLock (SyncEv.lockW ::
        (List.replicate k SyncEv.writeShared ++ [SyncEv.unlockW])) =
      List.replicate k SyncEv.writeShared := by
  have step : ∀ l, betweenLock (SyncEv.lockW :: l) =
      l.takeWhile (fun x => decide (x ≠ SyncEv.unlockW)) := fun l => rfl
  rw [step]
  induction k with
  | zero => rfl
  | succ n ih =>
    rw [List.replicate_succ, List.cons_append, List.takeWhile_cons, if_pos (by decide), ih]

theorem lexLt_irrefl : ∀ a : List Char, lexLt a a = false := by
  intro a
  induction a with
  | nil => rfl
  | cons x xs ih => simp [lexLt, ih]

theorem lexLt_trans : ∀ a b c : List Char,
    lexLt a b = true → lexLt b c = true → lexLt a c = true := by
  intro a
  induction a with
  | nil =>
    intro b c h1 h2
    cases b with
    | nil => exact h2
    | cons y ys =>
      cases c with
      | nil => simp [lexLt] at h2
      | cons z zs => rfl
  | cons x xs ih =>
    intro b c h1 h2
    cases b with
    | nil => simp [lexLt] at h1
    | cons y ys =>
      cases c with
      | nil => simp [lexLt] at h2
      | cons z zs =>
        simp only [lexLt] at h1 h2 ⊢
        by_cases hxy : x = y
        · subst hxy
          rw [if_pos rfl] at h1
          by_cases hyz : x = z
          · subst hyz
            rw [if_pos rfl] at h2 ⊢
            exact ih ys zs h1 h2
          · rw [if_neg hyz] at h2 ⊢
            exact h2
        · rw [if_neg hxy] at h1
          by_cases hyz : y = z
          · subst hyz
            rw [if_neg hxy]
            exact h1
          · rw [if_neg hyz] at h2
            have hxz : x < z := lt_trans (of_decide_eq_true h1) (of_decide_eq_true h2)
            rw [if_neg (ne_of_lt hxz)]
            exact decide_eq_true hxz

theorem lexLt_connex : ∀ a b : List Char,
    lexLt a b = false → lexLt b a = false → a = b := by
  intro a
  induction a with
  | nil =>
    intro b h1 h2
    cases b with
    | nil => rfl
    | cons y ys => simp [lexLt] at h1
  | cons x xs ih =>
    intro b h1 h2
    cases b with
    | nil => simp [lexLt] at h2
    | cons y ys =>
      simp only [lexLt] at h1 h2
      by_cases hxy : x = y
      · subst hxy
        rw [if_pos rfl] at h1 h2
        rw [ih ys h1 h2]
      · rw [if_neg hxy] at h1
        rw [if_neg (fun hh => hxy hh.symm)] at h2
        have h1a : ¬ x < y := of_decide_eq_false h1
        have h2a : ¬ y < x := of_decide_eq_false h2
        rcases lt_trichotomy x y with h | h | h
        · exact absurd h h1a
        · exact absurd h hxy
        · exact absurd h h2a

theorem lexLt_asymm {a b : List Char} (h : lexLt a b = true) : lexLt b a = false := by
  cases hx : lexLt b a
  · rfl
  · have h3 := lexLt_trans a b a h hx
    rw [lexLt_irrefl] at h3
    exact absurd h3 (by simp)

theorem lexLt_neg {a b : List Char} (h : lexLt a b = false) :
    lexLt b a = true ∨ a = b := by
  cases hx : lexLt b a
  · exact Or.inr (lexLt_connex a b h hx)
  · exact Or.inl rfl

theorem lexLt_false_trans {a b c : List Char} (h1 : lexLt a b = false)
    (h2 : lexLt b c = false) : lexLt a c = false := by
  cases hc : lexLt a c
  · rfl
  · exfalso
    rcases lexLt_neg h1 with hba | hab
    · rcases lexLt_neg h2 with hcb | hbc
      · have h3 := lexLt_trans a c a hc (lexLt_trans c b a hcb hba)
        rw [lexLt_irrefl] at h3
        exact absurd h3 (by simp)
      · subst hbc
        have h3 := lexLt_trans a b a hc hba
        rw [lexLt_irrefl] at h3
        exact absurd h3 (by simp)
    · subst hab
      rcases lexLt_neg h2 with hcb | hbc
      · have h3 := lexLt_trans a c a hc hcb
        rw [lexLt_irrefl] at h3
        exact absurd h3 (by simp)
      · subst hbc
        rw [lexLt_irrefl] at hc
        exact absurd hc (by simp)

theorem entLt_asymm {x y : FsEntry} (h : entLt x y = true) : entLt y x = false := by
  unfold entLt at h ⊢
  by_cases hd : entIsDir x = entIsDir y
  · rw [if_neg (fun hh => hh hd)] at h
    rw [if_neg (fun hh => hh hd.symm)]
    exact lexLt_asymm h
  · rw [if_pos hd] at h
    rw [if_pos (fun hh => hd hh.symm)]
    cases hy : entIsDir y
    · rfl
    · exact absurd (h.trans hy.symm) hd

theorem entLt_false_trans {a b c : FsEntry} (h1 : entLt b a = false)
    (h2 : entLt c b = false) : entLt c a = false := by
  unfold entLt at h1 h2 ⊢
  cases hda : entIsDir a <;> cases hdb : entIsDir b <;> cases hdc : entIsDir c <;>
    simp [hda, hdb, hdc] at h1 h2 ⊢ <;>
    exact lexLt_false_trans h2 h1

theorem insEnt_mem (a : FsEntry) : ∀ (l : List FsEntry) (x : FsEntry),
    x ∈ insEnt a l ↔ x = a ∨ x ∈ l := by
  intro l
  induction l with
  | nil => intro x; simp [insEnt]
  | cons b bs ih =>
    intro x
    rw [insEnt]
    by_cases h : entLt b a = true
    · rw [if_pos h]
      simp only [List.mem_cons, ih]
      tauto
    · rw [if_neg h]
      simp only [List.mem_cons]

theorem insEnt_pairwise (a : FsEntry) :
    ∀ l : List FsEntry, List.Pairwise (fun x y => entLt y x = false) l →
      List.Pairwise (fun x y => entLt y x = false) (insEnt a l) := by
  intro l
  induction l with
  | nil => intro _; simp [insEnt]
  | cons b bs ih =>
    intro hp
    obtain ⟨hhead, htail⟩ := List.pairwise_cons.mp hp
    rw [insEnt]
    by_cases h : entLt b a = true
    · rw [if_pos h, List.pairwise_cons]
      refine ⟨?_, ih htail⟩
      intro c hc
      rcases (insEnt_mem a bs c).mp hc with rfl | hcb
      · exact entLt_asymm h
      · exact hhead c hcb
    · rw [if_neg h, List.pairwise_cons]
      have hba : entLt b a = false := by
        cases hx : entLt b a
        · rfl
        · exact absurd hx h
      refine ⟨?_, hp⟩
      intro c hc
      rcases List.mem_cons.mp hc with rfl | hcbs
      · exact hba
      · exact entLt_false_trans hba (hhead c hcbs)

theorem sortEnts_pairwise : ∀ l : List FsEntry,
    List.Pairwise (fun x y => entLt y x = false) (sortEnts l) := by
  intro l
  induction l with
  | nil => simp [sortEnts]
  | cons a as ih =>
    rw [sortEnts]
    exact insEnt_pairwise a (sortEnts as) ih

theorem sortEnts_mem : ∀ (l : List FsEntry) (x : FsEntry),
    x ∈ sortEnts l ↔ x ∈ l := by
  intro l
  induction l with
  | nil => intro x; simp [sortEnts]
  | cons a as ih =>
    intro x
    rw [sortEnts, insEnt_mem]
    simp [List.mem_cons, ih]

theorem scanListF_succ (fuel : Nat) (path : List Char) (es : List FsEntry) :
    scanListF (fuel + 1) path es =
      (sortEnts es).foldl (scanBody fuel path) ([], []) := by
  rw [scanListF]
  apply List.foldl_ext
  intro acc ent _
  simp only [scanBody]
  cases ent with
  | file n =>
    simp only [scanEntryF, entName, entIsDir]
    cases h1 : hiddenName n
    · simp only [Bool.false_eq_true, if_false, Bool.false_and]
      cases h2 : mdName n
      · simp
      · simp
    · simp
  | dir n cs =>
    simp only [scanEntryF, entName, entIsDir]
    cases h1 : hiddenName n
    · by_cases h2 : (n = "node_modules".data ∨ n = ".git".data)
      · rcases h2 with h2 | h2 <;> simp [h2]
      · rw [not_or] at h2
        by_cases h3 : (scanListF fuel (childPath path n) cs).1.length > 0
        · simp [h2.1, h2.2, h3]
        · simp [h2.1, h2.2, h3]
    · simp

theorem scanBody_acc (fuel : Nat) (path : List Char) :
    ∀ (l : List FsEntry) (acc : List FileNode × List (List Char)),
      l.foldl (scanBody fuel path) acc =
        (acc.1 ++ (l.foldl (scanBody fuel path) ([], [])).1,
         acc.2 ++ (l.foldl (scanBody fuel path) ([], [])).2) := by
  intro l
  induction l with
  | nil => intro acc; simp
  | cons e t ih =>
    intro acc
    rw [List.foldl_cons, List.foldl_cons, ih (scanBody fuel path acc e),
      ih (scanBody fuel path ([], []) e)]
    simp [scanBody, List.append_assoc]

theorem scanNodes_eq (fuel : Nat) (path : List Char) :
    ∀ l : List FsEntry,
      (l.foldl (scanBody fuel path) ([], [])).1 = scanNodes fuel path l := by
  intro l
  induction l with
  | nil => rfl
  | cons e t ih =>
    rw [List.foldl_cons, scanBody_acc fuel path t, scanNodes]
    simp [scanBody, ih]

theorem scanListF_nodes (fuel : Nat) (path : List Char) (es : List FsEntry) :
    (scanListF (fuel + 1) path es).1 = scanNodes fuel path (sortEnts es) := by
  rw [scanListF_succ, scanNodes_eq]

theorem scanNodes_mem (fuel : Nat) (path : List Char) :
    ∀ (l : List FsEntry) (nd : FileNode), nd ∈ scanNodes fuel path l →
      ∃ e ∈ l, (scanEntryF fuel path e).1 = some nd := by
  intro l
  induction l with
  | nil => intro nd h; simp [scanNodes] at h
  | cons e t ih =>
    intro nd h
    rw [scanNodes] at h
    rcases List.mem_append.mp h with h1 | h2
    · refine ⟨e, List.mem_cons_self e t, ?_⟩
      simpa [Option.mem_toList, Option.mem_def] using h1
    · obtain ⟨e2, he2, hs⟩ := ih nd h2
      exact ⟨e2, List.mem_cons_of_mem e he2, hs⟩

theorem scanEntryF_shape (fuel : Nat) (p : List Char) (e : FsEntry) (nd : FileNode)
    (h : (scanEntryF fuel p e).1 = some nd) :
    nd.name = entName e ∧ nd.isDir = entIsDir e ∧
    (nd.isDir = true → nd.children ≠ [] ∧
      ∃ cs, e = FsEntry.dir (entName e) cs ∧
        nd.children = (scanListF fuel (childPath p (entName e)) cs).1) ∧
    (nd.isDir = false → nd.children = []) := by
  cases e with
  | file n =>
    simp only [scanEntryF, entName, entIsDir] at h
    cases h1 : hiddenName n
    · rw [h1] at h
      simp only [Bool.false_eq_true, if_false, Bool.false_and] at h
      cases h2 : mdName n
      · rw [h2] at h
        simp at h
      · rw [h2] at h
        simp only [if_true] at h
        simp only [Option.some.injEq] at h
        subst h
        refine ⟨rfl, rfl, ?_, fun _ => rfl⟩
        intro hdir
        simp at hdir
    · rw [h1] at h
      simp at h
  | dir n cs =>
    simp only [scanEntryF, entName, entIsDir] at h
    cases h1 : hiddenName n
    · rw [h1] at h
      simp only [Bool.false_eq_true, if_false, Bool.true_and] at h
      by_cases h2 : (n = "node_modules".data ∨ n = ".git".data)
      · rw [if_pos (by simpa using h2)] at h
        simp at h
      · rw [not_or] at h2
        rw [if_neg (by simp [h2.1, h2.2])] at h
        by_cases h3 : (scanListF fuel (childPath p n) cs).1.length > 0
        · rw [if_pos h3] at h
          simp only [Option.some.injEq] at h
          subst h
          refine ⟨rfl, rfl, ?_, ?_⟩
          · intro _
            constructor
            · intro hnil
              have hnil2 : (scanListF fuel (childPath p n) cs).1 = [] := hnil
              rw [hnil2] at h3
              simp at h3
            · exact ⟨cs, rfl, rfl⟩
          · intro hdir
            simp at hdir
        · rw [if_neg h3] at h
          simp at h
    · rw [h1] at h
      simp at h

theorem nodeLe_of_entLt_false {fuel : Nat} {path : List Char} {e1 e2 : FsEntry}
    {nd1 nd2 : FileNode} (h : entLt e2 e1 = false)
    (h1 : (scanEntryF fuel path e1).1 = some nd1)
    (h2 : (scanEntryF fuel path e2).1 = some nd2) : nodeLe nd1 nd2 := by
  obtain ⟨hn1, hd1, _, _⟩ := scanEntryF_shape fuel path e1 nd1 h1
  obtain ⟨hn2, hd2, _, _⟩ := scanEntryF_shape fuel path e2 nd2 h2
  unfold entLt at h
  unfold nodeLe
  by_cases hd : entIsDir e2 = entIsDir e1
  · rw [if_neg (fun hh => hh hd)] at h
    right
    refine ⟨by rw [hd1, hd2, hd], ?_⟩
    rcases lexLt_neg h with hlt | heq
    · left
      rw [hn1, hn2]
      exact hlt
    · right
      rw [hn1, hn2]
      exact heq.symm
  · rw [if_pos hd] at h
    have he1 : entIsDir e1 = true := by
      cases hx : entIsDir e1
      · exact absurd (h.trans hx.symm) hd
      · rfl
    left
    exact ⟨by rw [hd1]; exact he1, by rw [hd2]; exact h⟩

theorem scanNodes_pairwise (fuel : Nat) (path : List Char) :
    ∀ l : List FsEntry, List.Pairwise (fun a b => entLt b a = false) l →
      List.Pairwise nodeLe (scanNodes fuel path l) := by
  intro l
  induction l with
  | nil => intro _; simp [scanNodes]
  | cons e t ih =>
    intro hp
    obtain ⟨hhead, htail⟩ := List.pairwise_cons.mp hp
    rw [scanNodes, List.pairwise_append]
    refine ⟨?_, ih htail, ?_⟩
    · cases hx : (scanEntryF fuel path e).1 <;> simp [Option.toList]
    · intro nd1 hn1 nd2 hn2
      have h1 : (scanEntryF fuel path e).1 = some nd1 := by
        simpa [Option.mem_toList, Option.mem_def] using hn1
      obtain ⟨e2, he2, h2⟩ := scanNodes_mem fuel path t nd2 hn2
      exact nodeLe_of_entLt_false (hhead e2 he2) h1 h2

theorem scan_pairwise : ∀ (fuel : Nat) (path : List Char) (es : List FsEntry),
    List.Pairwise nodeLe (scanListF fuel path es).1 := by
  intro fuel
  cases fuel with
  | zero => intro path es; simp [scanListF]
  | succ f =>
    intro path es
    rw [scanListF_nodes]
    exact scanNodes_pairwise f path (sortEnts es) (sortEnts_pairwise es)

theorem subnodeL_nil (nd : FileNode) : ¬ SubnodeL nd [] := by
  intro h
  cases h with
  | head _ hm => simp at hm
  | child _ _ hm _ => simp at hm

theorem subnode_shape : ∀ (fuel : Nat) (path : List Char) (es : List FsEntry)
    (nd : FileNode), SubnodeL nd (scanListF fuel path es).1 →
    (nd.isDir = true → nd.children ≠ []) ∧ List.Pairwise nodeLe nd.children := by
  intro fuel
  induction fuel with
  | zero =>
    intro path es nd h
    exact absurd h (subnodeL_nil nd)
  | succ f ih =>
    intro path es nd h
    cases h with
    | head _ hm =>
      rw [scanListF_nodes] at hm
      obtain ⟨e, _, hs⟩ := scanNodes_mem f path (sortEnts es) nd hm
      obtain ⟨hn, hd, hdir, hfile⟩ := scanEntryF_shape f path e nd hs
      constructor
      · intro hIsDir
        exact (hdir hIsDir).1
      · by_cases hIsDir : nd.isDir = true
        · obtain ⟨_, ⟨cs, _, hch⟩⟩ := hdir hIsDir
          rw [hch]
          exact scan_pairwise f _ cs
        · have hnil : nd.children = [] := by
            apply hfile
            cases hx : nd.isDir
            · rfl
            · exact absurd hx hIsDir
          rw [hnil]
          exact List.Pairwise.nil
    | child m _ hm hsub =>
      rw [scanListF_nodes] at hm
      obtain ⟨e, _, hs⟩ := scanNodes_mem f path (sortEnts es) m hm
      obtain ⟨hn, hd, hdir, hfile⟩ := scanEntryF_shape f path e m hs
      by_cases hIsDir : m.isDir = true
      · obtain ⟨_, ⟨cs, _, hch⟩⟩ := hdir hIsDir
        rw [hch] at hsub
        exact ih _ cs nd hsub
      · have hnil : m.children = [] := by
          apply hfile
          cases hx : m.isDir
          · rfl
          · exact absurd hx hIsDir
        rw [hnil] at hsub
        exact absurd hsub (subnodeL_nil nd)

theorem scanEmpty : ∀ (fuel : Nat) (path : List Char) (es : List FsEntry),
    anyEligF fuel es = false → (scanListF fuel path es).1 = [] := by
  intro fuel
  induction fuel with
  | zero => intro path es _; rfl
  | succ f ih =>
    intro path es h
    rw [scanListF_nodes]
    have hall : ∀ e ∈ es, eligEntryF f e = false := by
      intro e he
      cases hx : eligEntryF f e
      · rfl
      · exfalso
        have hpred : es.any (fun ent =>
            match ent with
            | FsEntry.file n => !hiddenName n && mdName n
            | FsEntry.dir n cs =>
              !hiddenName n && n ≠ "node_modules".data && n ≠ ".git".data &&
                anyEligF f cs) = true := by
          rw [List.any_eq_true]
          refine ⟨e, he, ?_⟩
          cases e with
          | file n => exact hx
          | dir n cs => exact hx
        rw [anyEligF] at h
        rw [h] at hpred
        exact absurd hpred (by simp)
    have hent : ∀ e, eligEntryF f e = false → ∀ pp, (scanEntryF f pp e).1 = none := by
      intro e helig pp
      cases e with
      | file n =>
        cases h1 : hiddenName n
        · have hmd : mdName n = false := by
            rw [eligEntryF, h1] at helig
            simpa using helig
          simp [scanEntryF, entName, entIsDir, h1, hmd]
        · simp [scanEntryF, entName, h1]
      | dir n cs =>
        cases h1 : hiddenName n
        · by_cases h2 : n = "node_modules".data
          · simp [scanEntryF, entName, entIsDir, h1, h2]
          · by_cases h3 : n = ".git".data
            · simp [scanEntryF, entName, entIsDir, h1, h3]
            · have hany : anyEligF f cs = false := by
                rw [eligEntryF, h1] at helig
                simpa [h2, h3] using helig
              have hsub := ih (childPath pp n) cs hany
              simp [scanEntryF, entName, entIsDir, h1, h2, h3, hsub]
        · simp [scanEntryF, entName, h1]
    have hnone : ∀ l : List FsEntry, (∀ e ∈ l, eligEntryF f e = false) →
        scanNodes f path l = [] := by
      intro l
      induction l with
      | nil => intro _; rfl
      | cons e t iht =>
        intro hl
        rw [scanNodes, hent e (hl e (List.mem_cons_self e t)) path]
        simpa using iht (fun x hx => hl x (List.mem_cons_of_mem e hx))
    exact hnone (sortEnts es) (fun e he => hall e ((sortEnts_mem es e).mp he))

theorem scanEntryF_dir_none (fuel : Nat) (p n : List Char) (cs : List FsEntry)
    (h : eligEntryF fuel (FsEntry.dir n cs) = false) :
    (scanEntryF fuel p (FsEntry.dir n cs)).1 = none := by
  cases h1 : hiddenName n
  · by_cases h2 : n = "node_modules".data
    · simp [scanEntryF, entName, entIsDir, h1, h2]
    · by_cases h3 : n = ".git".data
      · simp [scanEntryF, entName, entIsDir, h1, h3]
      · have hany : anyEligF fuel cs = false := by
          rw [eligEntryF, h1] at h
          simpa [h2, h3] using h
        have hsub := scanEmpty fuel (childPath p n) cs hany
        simp [scanEntryF, entName, entIsDir, h1, h2, h3, hsub]
  · simp [scanEntryF, entName, h1]

/-! ## The claims -/

/-- C3: image path resolution in post-processing.  A relative reference
`img/a.png` inside `notes/sub/page.md` is rewritten to `notes/sub/img/a.png`,
`../img/a.png` from the same file to `notes/img/a.png`; an absolute
reference `/assets/a.png` and a remote reference `https://x/a.png` keep
their paths; all four elements gain the preview class and the
click-to-enlarge (lightbox) onclick handler. -/
theorem claim_image_path_resolution :
    fixImagePaths "<p><img src=\"img/a.png\" alt=\"\"></p>".data "notes/sub/page.md".data =
      ("<p><img src=\"notes/sub/img/a.png\" class=\"preview-image\"" ++
        " onclick=\"openImageModal(this.src)\" alt=\"\"></p>").data ∧
    fixImagePaths "<p><img src=\"../img/a.png\" alt=\"\"></p>".data "notes/sub/page.md".data =
      ("<p><img src=\"notes/img/a.png\" class=\"preview-image\"" ++
        " onclick=\"openImageModal(this.src)\" alt=\"\"></p>").data ∧
    fixImagePaths "<p><img src=\"/assets/a.png\" alt=\"\"></p>".data "notes/sub/page.md".data =
      ("<p><img src=\"/assets/a.png\" alt=\"\" class=\"preview-image\"" ++
        " onclick=\"openImageModal(this.src)\"></p>").data ∧
    fixImagePaths "<p><img src=\"https://x/a.png\" alt=\"\"></p>".data "notes/sub/page.md".data =
      ("<p><img src=\"https://x/a.png\" alt=\"\" class=\"preview-image\"" ++
        " onclick=\"openImageModal(this.src)\"></p>").data := by
  refine ⟨?_, ?_, ?_, ?_⟩ <;> decide

/-- C4: the image-path processor never corrupts or truncates the document.
On a malformed tag (missing closing quote, or missing `>` after it) the loop
emits the remaining content verbatim; its rewrite counter is bounded by the
fixed ceiling of 1000; and when the loop stops because the ceiling was
reached, fixImagePaths returns the original input unchanged. -/
theorem claim_image_processor_safety :
    (∀ fuel mdDir content acc n, (fixLoopF fuel mdDir content acc n).2 ≤ max n 1000) ∧
    (∀ fuel mdDir content acc n st, n < 1000 →
      goIndex imgNeedle content = some st →
      goIndex ['"'] (content.drop (st + 10)) = none →
      fixLoopF (fuel + 1) mdDir content acc n = (acc ++ content, n)) ∧
    (∀ fuel mdDir content acc n st e, n < 1000 →
      goIndex imgNeedle content = some st →
      goIndex ['"'] (content.drop (st + 10)) = some e →
      goIndex ['>'] (content.drop (st + 10 + e)) = none →
      fixLoopF (fuel + 1) mdDir content acc n = (acc ++ content, n)) ∧
    (∀ html p, 1000 ≤ (fixLoopF (html.length + 1) (mdDirOf p) html [] 0).2 →
      fixImagePaths html p = html) := by
  refine ⟨fixLoopF_counter, ?_, ?_, ?_⟩
  · intro fuel mdDir content acc n st hn h1 h2
    rw [fixLoopF_noquote fuel mdDir content acc hn h1 h2, List.append_assoc,
      List.take_append_drop]
  · intro fuel mdDir content acc n st e hn h1 h2 h3
    rw [fixLoopF_nogt fuel mdDir content acc hn h1 h2 h3, List.append_assoc,
      List.take_append_drop]
  · intro html p h
    rw [fixImagePaths_eq, if_pos h]

/-- Witness for C4: on the concrete fragment `ab<img src="x` (no closing
quote) the loop copies everything through verbatim and rewrites nothing. -/
theorem claim_image_processor_safety_witness :
    fixLoopF 15 [] "ab<img src=\"x".data [] 0 = ([] ++ "ab<img src=\"x".data, 0) :=
  claim_image_processor_safety.2.1 14 [] "ab<img src=\"x".data [] 0 2
    (by decide) (by decide) (by decide)

/-- C5 (amended): post-processing is idempotent on its own output for every
HTML fragment and every source path free of the double-quote character; an
element already carrying the click-affordance marker is passed through
unchanged.  (For a source path whose directory part contains `"` followed by
`>`, the rewritten src attribute changes how a second scan parses the tag and
idempotence fails — see the counterexample.) -/
theorem claim_image_idempotent_amended (html p : List Char) (hq : '"' ∉ p) :
    fixImagePaths (fixImagePaths html p) p = fixImagePaths html p := by
  have hqd : '"' ∉ mdDirOf p := mdDirOf_no_quote hq
  obtain ⟨hb, hs⟩ := fixLoopF_settled hqd (html.length + 1) html 0 (by omega)
  by_cases hceil : (fixLoopF (html.length + 1) (mdDirOf p) html [] 0).2 ≥ 1000
  · have hfix : fixImagePaths html p = html := by rw [fixImagePaths_eq, if_pos hceil]
    rw [hfix]
    exact hfix
  · have hlt : (fixLoopF (html.length + 1) (mdDirOf p) html [] 0).2 < 1000 := by omega
    have hfix : fixImagePaths html p =
        (fixLoopF (html.length + 1) (mdDirOf p) html [] 0).1 := by
      rw [fixImagePaths_eq, if_neg hceil]
    rw [hfix]
    have hset := hs hlt
    rw [fixImagePaths_eq]
    rw [settled_fixLoopF hset _ (mdDirOf p) [] 0 (by omega) (by omega)]
    simp

/-- Witness for C5: idempotence at a concrete fragment and source path. -/
theorem claim_image_idempotent_witness :
    fixImagePaths (fixImagePaths "<p><img src=\"img/a.png\" alt=\"\"></p>".data
        "notes/sub/page.md".data) "notes/sub/page.md".data =
      fixImagePaths "<p><img src=\"img/a.png\" alt=\"\"></p>".data "notes/sub/page.md".data :=
  claim_image_idempotent_amended _ _ (by decide)

/-- Counterexample to C5 as stated: for the source path `a">b/x.md` the
directory part `a">b` is spliced into the src attribute, the second pass
finds the `"` and the `>` of the path before the marker, re-parses the tag
as `<img src="a">` and rewrites it again, so running the processor twice
differs from running it once. -/
theorem claim_image_idempotent_counterexample :
    fixImagePaths (fixImagePaths "<img src=\"p\">".data "a\">b/x.md".data)
        "a\">b/x.md".data ≠
      fixImagePaths "<img src=\"p\">".data "a\">b/x.md".data := by
  decide

/-- C6: a fenced block rendered with either mermaid class is replaced by a
`<div class="mermaid">…</div>` wrapper holding the entity-decoded
(`&lt;`/`&gt;`/`&amp;` to `<`/`>`/`&`), whitespace-trimmed block text: for
every well-delimited body this holds for both opener forms, and in
particular a block produced from `A --> B` yields the literal `A --> B`. -/
theorem claim_mermaid_block_extraction :
    (∀ body : List Char,
      goIndex mermEnd (body ++ mermEnd) = some body.length →
      goIndex mermLong (mermWrap body) = none →
      goIndex mermShort (mermWrap body) = none →
      processMermaidBlocks (mermLong ++ body ++ mermEnd) = mermWrap body ∧
      (goIndex mermLong (mermShort ++ body ++ mermEnd) = none →
        processMermaidBlocks (mermShort ++ body ++ mermEnd) = mermWrap body)) ∧
    processMermaidBlocks "<pre><code class=\"language-mermaid\">A --&gt; B\n</code></pre>".data =
      "<div class=\"mermaid\">A --> B</div>".data ∧
    processMermaidBlocks "<pre><code class=\"mermaid\">A --&gt; B\n</code></pre>".data =
      "<div class=\"mermaid\">A --> B</div>".data := by
  refine ⟨?_, by decide, by decide⟩
  intro body hend hnoL hnoS
  constructor
  · unfold processMermaidBlocks
    cases hlen : (mermLong ++ body ++ mermEnd).length with
    | zero =>
      exfalso
      simp only [List.length_append] at hlen
      have : mermLong.length = 36 := by decide
      omega
    | succ L =>
      rw [processMermaidF_succ, mermaidStep_single_long hend]
      exact processMermaidF_fix (mermaidStep_none hnoL hnoS) (L + 1)
  · intro hnoLong
    unfold processMermaidBlocks
    cases hlen : (mermShort ++ body ++ mermEnd).length with
    | zero =>
      exfalso
      simp only [List.length_append] at hlen
      have : mermShort.length = 27 := by decide
      omega
    | succ L =>
      rw [processMermaidF_succ, mermaidStep_single_short hnoLong hend]
      exact processMermaidF_fix (mermaidStep_none hnoL hnoS) (L + 1)

/-- Witness for C6: the long form on the concrete body `A --&gt; B`
produces the wrapper with the decoded, trimmed text. -/
theorem claim_mermaid_extraction_witness :
    processMermaidBlocks (mermLong ++ "A --&gt; B\n".data ++ mermEnd) =
      mermWrap "A --&gt; B\n".data :=
  (claim_mermaid_block_extraction.1 "A --&gt; B\n".data
    (by decide) (by decide) (by decide)).1

/-- C10: the Mermaid rewrite loop terminates on every input: each iteration
replaces an opener, body and closer by the wrapper around the decoded,
trimmed body, which strictly shortens the string, so fuel beyond the input
length never matters — any two sufficient fuel values give the same result,
and the run with fuel `length + 1` is the loop's true fixpoint. -/
theorem claim_mermaid_terminates :
    (∀ c c1 : List Char, mermaidStep c = some c1 → c1.length < c.length) ∧
    (∀ f1 f2 c, c.length < f1 → c.length < f2 →
      processMermaidF f1 c = processMermaidF f2 c) ∧
    (∀ f c, c.length < f → processMermaidF f c = processMermaidBlocks c) := by
  refine ⟨fun c c1 h => mermaidStep_length h, processMermaidF_fuel, ?_⟩
  intro f c hf
  exact processMermaidF_fuel f (c.length + 1) c hf (by omega)

/-- Witness for C10: one step on a concrete one-block document strictly
shortens it, and a larger fuel agrees with the canonical run. -/
theorem claim_mermaid_terminates_witness :
    ("<div class=\"mermaid\">A</div>".data : List Char).length <
      ("<pre><code class=\"language-mermaid\">A</code></pre>".data : List Char).length :=
  claim_mermaid_terminates.1 _ _ (by decide)

/-- C1 (amended): the artifact write is NOT atomic.  A serialization failure
returns before touching the destination, so only then is the previous
artifact intact; in every other run os.Create first truncates the
destination to empty — the empty file heads the list of states a concurrent
reader can observe — and a template-execution failure after k bytes leaves
that k-byte prefix on disk, not the previous artifact. -/
theorem claim_artifact_write :
    (∀ prev out failAt, (emitArtifact prev out false failAt).1 = prev ∧
      (emitArtifact prev out false failAt).2 = []) ∧
    (∀ prev out failAt, (emitArtifact prev out true failAt).2 =
      [⟨some []⟩, tmplExecute ⟨some []⟩ out failAt]) ∧
    (∀ prev out k, (emitArtifact prev out true (some k)).1 = ⟨some (out.take k)⟩) ∧
    (∀ prev out, (emitArtifact prev out true none).1 = ⟨some out⟩) :=
  ⟨fun _ _ _ => ⟨rfl, rfl⟩, fun _ _ _ => rfl, fun _ _ _ => rfl, fun _ _ => rfl⟩

/-- Counterexample to C1 as stated: writing `NEW` over a previous `OLD`
artifact with the template failing after one byte destroys the old artifact
(the file ends as `N`), and the observable trace contains the empty
truncated file before any new content exists. -/
theorem claim_artifact_write_counterexample :
    (emitArtifact ⟨some "OLD".data⟩ "NEW".data true (some 1)).1.content ≠
        some "OLD".data ∧
      (emitArtifact ⟨some "OLD".data⟩ "NEW".data true (some 1)).2.map
          DiskFile.content = [some [], some "N".data] :=
  ⟨by decide, rfl⟩

/-- C2 (amended): rescanDirectory holds the write lock for the ENTIRE scan —
every one of the 2 + #nodes + #markdown-paths shared writes of a build sits
between the lock acquisition and its release, not just a pointer swap — and
generateHTML, after the three events of its read-locked tree serialization,
performs one shared read of the markdown list per file with no lock held. -/
theorem claim_build_lock_scope :
    (∀ fuel es, betweenLock (rescanEvs fuel es) =
      List.replicate (2 + nodeCountF fuel (scanListF fuel ['.'] es).1 +
        (scanListF fuel ['.'] es).2.length) SyncEv.writeShared) ∧
    (∀ files, (genEvs files).drop 3 = List.replicate files.length SyncEv.readShared) ∧
    (∀ files : List (List Char), SyncEv.unlockR ∈ (genEvs files).take 3) := by
  refine ⟨fun fuel es => betweenLock_writes _, fun files => rfl, fun files => ?_⟩
  show SyncEv.unlockR ∈ [SyncEv.lockR, SyncEv.readShared, SyncEv.unlockR]
  decide

/-- Counterexample to C2 as stated: already for a root directory holding one
markdown file the write-lock critical section contains four shared writes,
so the lock is not held merely for the instant of a reference replacement. -/
theorem claim_build_lock_counterexample :
    ¬ lockOnlyInstant (rescanEvs 1 [FsEntry.file "a.md".data]) := by
  unfold lockOnlyInstant
  decide

/-- C7: every markdown file the scan discovered has exactly one entry in the
rendered-document map, holding exactly what renderMarkdownFile produced for
it, and a read failure on one file degrades that entry to the inline error
fragment instead of aborting the build. -/
theorem claim_render_map_total
    (readF convert : List Char → Except (List Char) (List Char))
    (files : List (List Char)) (p : List Char) (hp : p ∈ files) :
    lookupKV (buildFilesData readF convert files) p =
      some (renderedValue readF convert p) ∧
    countKey (buildFilesData readF convert files) p = 1 ∧
    ∀ e, readF p = Except.error e →
      lookupKV (buildFilesData readF convert files) p = some (errFragment e) := by
  have h1 : lookupKV (buildFilesData readF convert files) p =
      some (renderedValue readF convert p) := by
    unfold buildFilesData
    rw [lookupKV_buildFold, if_pos hp]
  refine ⟨h1, ?_, ?_⟩
  · unfold buildFilesData
    rw [countKey_buildFold, if_pos hp]
    rfl
  · intro e he
    rw [h1]
    have h2 : renderedValue readF convert p = errFragment e := by
      unfold renderedValue renderMarkdownFile
      rw [he]
      rfl
    rw [h2]

/-- Witness for C7: with a read oracle that fails on `bad.md`, that file's
entry exists, is unique, and holds the inline error fragment. -/
theorem claim_render_map_witness :
    lookupKV (buildFilesData readOracle convOracle ["a.md".data, "bad.md".data])
        "bad.md".data =
      some (renderedValue readOracle convOracle "bad.md".data) ∧
    countKey (buildFilesData readOracle convOracle ["a.md".data, "bad.md".data])
        "bad.md".data = 1 ∧
    ∀ e, readOracle "bad.md".data = Except.error e →
      lookupKV (buildFilesData readOracle convOracle ["a.md".data, "bad.md".data])
        "bad.md".data = some (errFragment e) :=
  claim_render_map_total readOracle convOracle _ _ (by decide)

/-- C8: empty-branch pruning.  An entry list with no eligible markdown file
anywhere beneath it scans to an empty forest; a directory entry with no
eligible markdown file beneath it contributes no node; and every directory
node of a scanned tree has at least one child. -/
theorem claim_empty_branch_pruning :
    (∀ fuel dirPath es, anyEligF fuel es = false →
      (scanListF fuel dirPath es).1 = []) ∧
    (∀ fuel dirPath name cs, eligEntryF fuel (FsEntry.dir name cs) = false →
      (scanEntryF fuel dirPath (FsEntry.dir name cs)).1 = none) ∧
    (∀ fuel dirPath es nd, SubnodeL nd (scanListF fuel dirPath es).1 →
      nd.isDir = true → nd.children ≠ []) :=
  ⟨fun fuel dirPath es h => scanEmpty fuel dirPath es h,
   fun fuel dirPath name cs h => scanEntryF_dir_none fuel dirPath name cs h,
   fun fuel dirPath es nd h hd => (subnode_shape fuel dirPath es nd h).1 hd⟩

/-- Witness for C8: a directory holding only a non-markdown file produces no
node. -/
theorem claim_empty_branch_pruning_witness :
    (scanEntryF 1 ".".data (FsEntry.dir "empty".data [FsEntry.file "t.txt".data])).1 =
      none :=
  claim_empty_branch_pruning.2.1 1 ".".data "empty".data [FsEntry.file "t.txt".data]
    (by decide)

/-- C9: child-ordering invariant.  The top level of every scanned forest,
and the children of every node anywhere in it, are pairwise ordered with
directories before files and, within one kind, names ascending in
byte-lexicographic order. -/
theorem claim_child_ordering :
    (∀ fuel dirPath es, List.Pairwise nodeLe (scanListF fuel dirPath es).1) ∧
    (∀ fuel dirPath es nd, SubnodeL nd (scanListF fuel dirPath es).1 →
      List.Pairwise nodeLe nd.children) :=
  ⟨scan_pairwise, fun fuel dirPath es nd h => (subnode_shape fuel dirPath es nd h).2⟩

/-- Witness for C9: ordering of a concrete mixed scan. -/
theorem claim_child_ordering_witness :
    List.Pairwise nodeLe (scanListF 2 ".".data
      [FsEntry.file "b.md".data, FsEntry.dir "a".data [FsEntry.file "x.md".data],
        FsEntry.file "a.md".data]).1 :=
  claim_child_ordering.1 2 ".".data _

end ObsidianPreview